import Mathlib

/-!
# Verification of the browser-to-browser file replication engine

Shallow embedding, in Lean 4, of the file-sharing replication engine of a
wasm/WebRTC BitTorrent-like file sharing example, checked against its
natural-language specification.

Sources embedded below:
* `FileState`            from `src/peer/src/file_state.rs`
* `File`                 from `src/peer/src/file.rs` and `src/peer/src/file_chunk.rs`
* `FilePiecesQueues`     per spec section 4.3 (the revision of the queue module used
  by `shared_file.rs` is not part of the sources; only its caller is)
* `SharedFile`           from `src/peer/src/shared_file.rs`
* `fxhash64`             from the `fxhash` crate as used by `select_piece_peer`
* the data-channel send  from `src/peer/src/remote_peer.rs`
* the sender loop        from `src/peer/src/local_peer.rs`

Conventions:
* Machine integers (`u64`, `usize`, `u8`) are modelled as `Nat`; wrapping
  64-bit arithmetic is made explicit with `% 2 ^ 64` (release-build
  semantics of the Rust sources).
* A Rust operation that can panic (`unwrap`, slice indexing, `assert!`)
  is modelled with an outer `Option`: `none` is a panic.
* Mutation of `&mut self` is modelled by returning the updated state next
  to the `Result` value, so state changes made before an early `Err`
  return are preserved, exactly as in the source.
* `HashMap` is modelled as an association list with unique keys,
  `BTreeMap` as an association list sorted by key.
-/

deriving instance DecidableEq for Except

namespace Sharing

/-- Return status of `FileState::set` (`file_state.rs`). -/
inductive FileStateSetStatus
  | justSet
  | alreadySet
deriving DecidableEq, Repr

/-- Return status of `FileState::unset`.  The revision of `file_state.rs`
used by `shared_file.rs` is not in the sources; modelled from the spec:
`unset(i)` returns `JustUnset` or `AlreadyUnset`. -/
inductive FileStateUnsetStatus
  | justUnset
  | alreadyUnset
deriving DecidableEq, Repr

/-- `FileState` (`file_state.rs`): a bit vector plus an incrementally
maintained count of set bits.  The `BitBox` is modelled at logical-bit
granularity as a `List Bool`. -/
structure FileState where
  raw : List Bool
  num_available : Nat
deriving DecidableEq, Repr

/-- `FileState::empty`. -/
def FileState.empty : FileState := ⟨[], 0⟩

/-- `FileState::new_missing` (named `from_missing` in the revision used by
`shared_file.rs`). -/
def FileState.new_missing (len : Nat) : FileState := ⟨List.replicate len false, 0⟩

/-- `FileState::new_complete` (named `from_complete` in the revision used by
`shared_file.rs`). -/
def FileState.new_complete (len : Nat) : FileState := ⟨List.replicate len true, len⟩

/-- `FileState::from(pieces_mask)`: recounts the ones of the given mask. -/
def FileState.from_raw (mask : List Bool) : FileState := ⟨mask, mask.count true⟩

/-- `FileState::len`. -/
def FileState.len (s : FileState) : Nat := s.raw.length

/-- `FileState::is_missing`. -/
def FileState.is_missing (s : FileState) : Bool := s.num_available == 0

/-- `FileState::is_complete`. -/
def FileState.is_complete (s : FileState) : Bool := s.num_available == s.len

/-- `FileState::num_missing`. -/
def FileState.num_missing (s : FileState) : Nat := s.len - s.num_available

/-- `FileState::has`: `none` models `Err(PieceIndexOutOfRange)`. -/
def FileState.has (s : FileState) (piece_idx : Nat) : Option Bool :=
  s.raw.get? piece_idx

/-- `FileState::set`: `none` models `Err(PieceIndexOutOfRange)`; on success
the status and the updated state are returned. -/
def FileState.set (s : FileState) (piece_idx : Nat) :
    Option (FileStateSetStatus × FileState) :=
  match s.raw.get? piece_idx with
  | none => none
  | some true => some (.alreadySet, s)
  | some false => some (.justSet, ⟨s.raw.set piece_idx true, s.num_available + 1⟩)

/-- `FileState::unset`.  The revision of `file_state.rs` used by
`shared_file.rs` is not in the sources; modelled from the spec:
"`unset(i)` returns `JustUnset` or `AlreadyUnset`", maintaining the
cardinality incrementally like `set`. -/
def FileState.unset (s : FileState) (piece_idx : Nat) :
    Option (FileStateUnsetStatus × FileState) :=
  match s.raw.get? piece_idx with
  | none => none
  | some false => some (.alreadyUnset, s)
  | some true => some (.justUnset, ⟨s.raw.set piece_idx false, s.num_available - 1⟩)

/-- `<FileState as BitAnd>::bitand` (`file_state.rs`): ands the backing
words and rebuilds through `FileState::from`, which recounts the ones.
The word-wise and equals the logical bit-wise and for the equal-length
states this code applies it to. -/
def FileState.bitand (s rhs : FileState) : FileState :=
  FileState.from_raw (List.zipWith and s.raw rhs.raw)

/-- The `FileState` values reachable through the constructors `empty`,
`new_missing`, `new_complete`, `from` and the operations `set` (successful
or not) and bitwise and (claim C10's reachable set). -/
inductive FileState.Reachable : FileState → Prop
  | empty : FileState.Reachable .empty
  | new_missing (len : Nat) : FileState.Reachable (.new_missing len)
  | new_complete (len : Nat) : FileState.Reachable (.new_complete len)
  | from_raw (mask : List Bool) : FileState.Reachable (.from_raw mask)
  | set {s : FileState} {i : Nat} {st : FileStateSetStatus} {s' : FileState} :
      FileState.Reachable s → s.set i = some (st, s') → FileState.Reachable s'
  | bitand {s : FileState} (rhs : FileState) :
      FileState.Reachable s → FileState.Reachable (s.bitand rhs)

/-- The cached-cardinality invariant of `FileState`. -/
def FileState.Inv (s : FileState) : Prop := s.num_available = s.raw.count true

theorem count_set_true {l : List Bool} {i : Nat} (h : l.get? i = some false) :
    (l.set i true).count true = l.count true + 1 := by
  induction l generalizing i with
  | nil => simp at h
  | cons b t ih =>
    cases i with
    | zero =>
      simp only [List.get?] at h
      cases h
      simp [List.set, List.count_cons]
    | succ n =>
      simp only [List.get?] at h
      simp only [List.set, List.count_cons, ih h]
      omega

theorem FileState.reachable_inv {s : FileState} (h : s.Reachable) : s.Inv := by
  induction h with
  | empty => simp [FileState.Inv, FileState.empty]
  | new_missing len =>
    simp [FileState.Inv, FileState.new_missing, List.count_replicate]
  | new_complete len => simp [FileState.Inv, FileState.new_complete]
  | from_raw mask => rfl
  | bitand rhs _ _ => rfl
  | @set s i st s' _ hset ih =>
    unfold FileState.set at hset
    match hget : s.raw.get? i with
    | none => rw [hget] at hset; cases hset
    | some true =>
      rw [hget] at hset
      cases hset
      exact ih
    | some false =>
      rw [hget] at hset
      cases hset
      simpa [FileState.Inv, count_set_true hget] using ih

theorem FileState.inv_is_missing {s : FileState} (h : s.Inv) :
    s.is_missing = true ↔ ∀ b ∈ s.raw, b = false := by
  unfold FileState.is_missing
  rw [beq_iff_eq, h, List.count_eq_zero]
  constructor
  · intro hc b hb
    cases b
    · rfl
    · exact absurd hb hc
  · intro hall htrue
    exact Bool.noConfusion (hall true htrue)

theorem FileState.inv_is_complete {s : FileState} (h : s.Inv) :
    s.is_complete = true ↔ ∀ b ∈ s.raw, b = true := by
  unfold FileState.is_complete FileState.len
  rw [beq_iff_eq, h, List.count_eq_length]
  constructor
  · intro hall b hb
    exact (hall b hb).symm
  · intro hall b hb
    exact (hall b hb).symm

/-- C10: every `FileState` reachable through the constructors (`empty`,
`new_missing`, `new_complete`, `from`) and the operations (`set`, bitwise
and) has `num_available` equal to the number of ones of the underlying
bit vector; consequently `is_missing` holds iff no bit is set and
`is_complete` holds iff every bit is set. -/
theorem c10_file_state_cardinality {s : FileState} (h : s.Reachable) :
    s.num_available = s.raw.count true ∧
      (s.is_missing = true ↔ ∀ b ∈ s.raw, b = false) ∧
      (s.is_complete = true ↔ ∀ b ∈ s.raw, b = true) :=
  ⟨FileState.reachable_inv h,
    FileState.inv_is_missing (FileState.reachable_inv h),
    FileState.inv_is_complete (FileState.reachable_inv h)⟩

/-- Witness for C10 at a concrete reachable state:
`new_missing 2` then `set 1`. -/
theorem c10_file_state_cardinality_witness :
    (⟨[false, true], 1⟩ : FileState).num_available =
        (⟨[false, true], 1⟩ : FileState).raw.count true ∧
      ((⟨[false, true], 1⟩ : FileState).is_missing = true ↔
        ∀ b ∈ (⟨[false, true], 1⟩ : FileState).raw, b = false) ∧
      ((⟨[false, true], 1⟩ : FileState).is_complete = true ↔
        ∀ b ∈ (⟨[false, true], 1⟩ : FileState).raw, b = true) :=
  c10_file_state_cardinality
    (FileState.Reachable.set (FileState.Reachable.new_missing 2)
      (show (FileState.new_missing 2).set 1 =
          some (.justSet, ⟨[false, true], 1⟩) by decide))

/-! ## File storage (`file.rs`, `file_chunk.rs`) -/

/-- `FILE_PIECE_SIZE` (`file_piece.rs`). -/
def FILE_PIECE_SIZE : Nat := 1024

/-- `FILE_CHUNK_SIZE` (`file.rs`). -/
def FILE_CHUNK_SIZE : Nat := 1048576

/-- `NUM_PIECES_IN_CHUNK` (`file.rs`). -/
def NUM_PIECES_IN_CHUNK : Nat := FILE_CHUNK_SIZE / FILE_PIECE_SIZE

def U64_MOD : Nat := 2 ^ 64

/-- Wrapping `u64` subtraction (release-build semantics of `a - b`),
exact for `a < 2 ^ 64`. -/
def u64_wrapping_sub (a b : Nat) : Nat := (a + U64_MOD - b % U64_MOD) % U64_MOD

theorem u64_wrapping_sub_of_le {a b : Nat} (hb : b ≤ a) (ha : a < U64_MOD) :
    u64_wrapping_sub a b = a - b := by
  have hM : U64_MOD = 18446744073709551616 := rfl
  unfold u64_wrapping_sub
  rw [hM] at ha ⊢
  rw [Nat.mod_eq_of_lt (show b < 18446744073709551616 by omega)]
  have h1 : a + 18446744073709551616 - b = 18446744073709551616 + (a - b) := by omega
  rw [h1, Nat.add_mod_left, Nat.mod_eq_of_lt (by omega)]

/-- `File` (`file.rs`): metadata, chunked byte contents, cached piece
count and the local piece bitmap.  The metadata name is irrelevant to the
claims and is omitted; `sha256` is modelled as an opaque number. -/
structure File where
  sha256 : Nat
  file_len : Nat
  chunks : List (List Nat)
  num_pieces : Nat
  state : FileState
deriving DecidableEq, Repr

/-- `f` with its chunk vector replaced (record-update helper). -/
def File.withChunks (f : File) (cs : List (List Nat)) : File :=
  ⟨f.sha256, f.file_len, cs, f.num_pieces, f.state⟩

/-- `f` with its local state bitmap replaced (record-update helper). -/
def File.withState (f : File) (st : FileState) : File :=
  ⟨f.sha256, f.file_len, f.chunks, f.num_pieces, st⟩

/-- `File::new(metadata)` (`file.rs`): zeroed chunks, missing state. -/
def File.new (sha256 file_len : Nat) : File :=
  { sha256 := sha256
    file_len := file_len
    chunks := (List.range ((file_len + FILE_CHUNK_SIZE - 1) / FILE_CHUNK_SIZE)).map
      (fun j => List.replicate (min (file_len - j * FILE_CHUNK_SIZE) FILE_CHUNK_SIZE) 0)
    num_pieces := (file_len + FILE_PIECE_SIZE - 1) / FILE_PIECE_SIZE
    state := FileState.new_missing ((file_len + FILE_PIECE_SIZE - 1) / FILE_PIECE_SIZE) }

/-- `File::piece_len` (`file.rs`): `(len - offset).min(PIECE_SIZE)` on
`u64` with `offset = piece_idx * FILE_PIECE_SIZE`, the subtraction
wrapping for out-of-range piece indices. -/
def File.piece_len (f : File) (piece_idx : Nat) : Nat :=
  min (u64_wrapping_sub f.file_len (piece_idx * FILE_PIECE_SIZE)) FILE_PIECE_SIZE

/-- `<Box<[u8]> as FileChunk>::set` (`file_chunk.rs`):
`self[offset..offset + data.len()].copy_from_slice(data)`; `none` models
the slice-out-of-bounds panic. -/
def chunkSet (chunk : List Nat) (offset : Nat) (data : List Nat) : Option (List Nat) :=
  if offset + data.length ≤ chunk.length then
    some (chunk.take offset ++ data ++ chunk.drop (offset + data.length))
  else none

/-- `<Box<[u8]> as FileChunk>::get` (`file_chunk.rs`):
`self[offset..self.len().min(offset + len)]`; `none` models the
slice-out-of-bounds panic. -/
def chunkGet (chunk : List Nat) (offset len : Nat) : Option (List Nat) :=
  if offset ≤ chunk.length then
    some ((chunk.take (min chunk.length (offset + len))).drop offset)
  else none

/-- `FileSetPieceError` (`file.rs`): the out-of-range variant arrives via
`FileState::set`. -/
inductive FileSetPieceError
  | pieceIndexOutOfRange
  | invalidPieceLen (expected : Nat)
deriving DecidableEq, Repr

/-- `FileGetPieceError` (`file.rs`). -/
inductive FileGetPieceError
  | pieceIndexOutOfRange
deriving DecidableEq, Repr

/-- `File::has_piece` (`file.rs`). -/
def File.has_piece (f : File) (piece_idx : Nat) : Option Bool :=
  f.state.has piece_idx

/-- `File::set_piece` (`file.rs`).  Mirrors the source order of effects:
length check first, then the chunk byte write, then `FileState::set`.
`none` models a panic (chunk indexing or the `copy_from_slice` bounds). -/
def File.set_piece (f : File) (piece_idx : Nat) (data : List Nat) :
    Option (Except FileSetPieceError FileStateSetStatus × File) :=
  if data.length = f.piece_len piece_idx then
    match f.chunks.get? (piece_idx / NUM_PIECES_IN_CHUNK) with
    | none => none
    | some chunk =>
      match chunkSet chunk ((piece_idx % NUM_PIECES_IN_CHUNK) * FILE_PIECE_SIZE) data with
      | none => none
      | some chunk' =>
        match f.state.set piece_idx with
        | none => some (.error .pieceIndexOutOfRange, f.withChunks (f.chunks.set (piece_idx / NUM_PIECES_IN_CHUNK) chunk'))
        | some (status, state') => some (.ok status, (f.withChunks (f.chunks.set (piece_idx / NUM_PIECES_IN_CHUNK) chunk')).withState state')
  else some (.error (.invalidPieceLen (f.piece_len piece_idx)), f)

/-- `File::get_piece` (`file.rs`). -/
def File.get_piece (f : File) (piece_idx : Nat) :
    Option (Except FileGetPieceError (Option (List Nat))) :=
  match f.state.has piece_idx with
  | none => some (.error .pieceIndexOutOfRange)
  | some false => some (.ok none)
  | some true =>
    match f.chunks.get? (piece_idx / NUM_PIECES_IN_CHUNK) with
    | none => none
    | some chunk =>
      match chunkGet chunk ((piece_idx % NUM_PIECES_IN_CHUNK) * FILE_PIECE_SIZE) (f.piece_len piece_idx) with
      | none => none
      | some bytes => some (.ok (some bytes))

/-- Chunk layout produced by `File::new`, starting at chunk index `j`. -/
def chunksWf (file_len j : Nat) : List (List Nat) → Bool
  | [] => true
  | c :: rest =>
    (c.length == min (file_len - j * FILE_CHUNK_SIZE) FILE_CHUNK_SIZE) &&
      chunksWf file_len (j + 1) rest

/-- Structural well-formedness of a `File`, as established by `File::new`
and preserved by its operations. -/
def File.wf (f : File) : Bool :=
  decide (f.file_len < U64_MOD) &&
    (f.num_pieces == (f.file_len + FILE_PIECE_SIZE - 1) / FILE_PIECE_SIZE) &&
    (f.state.raw.length == f.num_pieces) &&
    (f.chunks.length == (f.file_len + FILE_CHUNK_SIZE - 1) / FILE_CHUNK_SIZE) &&
    chunksWf f.file_len 0 f.chunks

/-- The file with the bytes of piece `piece_idx` replaced by `data` (the
chunk write performed by `File::set_piece` when the length check passes). -/
def File.set_piece_written (f : File) (piece_idx : Nat) (data : List Nat) : File :=
  f.withChunks (f.chunks.set (piece_idx / NUM_PIECES_IN_CHUNK) ((f.chunks.getD (piece_idx / NUM_PIECES_IN_CHUNK) []).take ((piece_idx % NUM_PIECES_IN_CHUNK) * FILE_PIECE_SIZE) ++ data ++ (f.chunks.getD (piece_idx / NUM_PIECES_IN_CHUNK) []).drop ((piece_idx % NUM_PIECES_IN_CHUNK) * FILE_PIECE_SIZE + data.length)))

theorem get?_set_self {α : Type} (l : List α) (i : Nat) (a : α) (h : i < l.length) :
    (l.set i a).get? i = some a := by
  induction l generalizing i with
  | nil => simp at h
  | cons b t ih =>
    cases i with
    | zero => rfl
    | succ n =>
      simp only [List.length_cons] at h
      simpa [List.set] using ih n (by omega)

theorem chunksWf_get? {file_len : Nat} :
    ∀ {j : Nat} {l : List (List Nat)}, chunksWf file_len j l = true →
      ∀ {k : Nat} {c : List Nat}, l.get? k = some c →
        c.length = min (file_len - (j + k) * FILE_CHUNK_SIZE) FILE_CHUNK_SIZE := by
  intro j l
  induction l generalizing j with
  | nil => intro _ k c hk; simp at hk
  | cons hd t ih =>
    intro hwf k c hk
    simp only [chunksWf, Bool.and_eq_true, beq_iff_eq] at hwf
    cases k with
    | zero =>
      simp only [List.get?] at hk
      cases hk
      simpa using hwf.1
    | succ m =>
      simp only [List.get?] at hk
      have := ih hwf.2 hk
      simpa [Nat.add_assoc, Nat.add_comm 1 m] using this

/-- Support lemma: `File::get_piece` computed from its parts. -/
theorem File.get_piece_eq {g : File} {i : Nat} {cc bytes : List Nat}
    (h1 : g.state.has i = some true)
    (h2 : g.chunks.get? (i / NUM_PIECES_IN_CHUNK) = some cc)
    (h3 : chunkGet cc ((i % NUM_PIECES_IN_CHUNK) * FILE_PIECE_SIZE) (g.piece_len i) = some bytes) :
    g.get_piece i = some (.ok (some bytes)) := by
  unfold File.get_piece
  simp only [h1, h2, h3]

/-- C5 (amended): on an in-range, already locally set piece with data of
the expected length, `File::set_piece` returns `AlreadySet` and leaves the
bitmap unchanged, but it overwrites the stored bytes of that piece with
the given data all the same: the bytes are written whenever the length
check passes, regardless of the `JustSet`/`AlreadySet` outcome. -/
theorem c5_set_piece_already_set (f : File) (i : Nat) (data : List Nat)
    (hwf : f.wf = true) (hhas : f.state.has i = some true)
    (hlen : data.length = f.piece_len i) :
    f.set_piece i data = some (.ok FileStateSetStatus.alreadySet, f.set_piece_written i data) ∧
      (f.set_piece_written i data).state = f.state ∧
      (f.set_piece_written i data).get_piece i = some (.ok (some data)) := by
  have hPS : FILE_PIECE_SIZE = 1024 := rfl
  have hCS : FILE_CHUNK_SIZE = 1048576 := rfl
  have hNC : NUM_PIECES_IN_CHUNK = 1024 := rfl
  have hM : U64_MOD = 18446744073709551616 := rfl
  simp only [File.wf, Bool.and_eq_true, beq_iff_eq, decide_eq_true_eq] at hwf
  obtain ⟨⟨⟨⟨hflen, hnp⟩, hsl⟩, hcl⟩, hcw⟩ := hwf
  rw [hPS] at hnp
  rw [hCS] at hcl
  rw [hM] at hflen
  have hil : i < f.state.raw.length := by
    cases Nat.lt_or_ge i f.state.raw.length with
    | inl h => exact h
    | inr h =>
      rw [FileState.has, List.get?_eq_none.mpr h] at hhas
      cases hhas
  have hi : i < f.num_pieces := by omega
  have hioff : i * 1024 < f.file_len := by omega
  have hplen : f.piece_len i = min (f.file_len - i * 1024) 1024 := by
    unfold File.piece_len
    rw [hPS, u64_wrapping_sub_of_le (by omega) (by rw [show U64_MOD = 18446744073709551616 from rfl]; omega)]
  have hci : i / NUM_PIECES_IN_CHUNK < f.chunks.length := by
    rw [hNC]
    omega
  obtain ⟨c, hc⟩ : ∃ c, f.chunks.get? (i / NUM_PIECES_IN_CHUNK) = some c := by
    cases hgc : f.chunks.get? (i / NUM_PIECES_IN_CHUNK) with
    | none => exact absurd (List.get?_eq_none.mp hgc) (by omega)
    | some c => exact ⟨c, rfl⟩
  have hclen : c.length = min (f.file_len - (i / 1024) * 1048576) 1048576 := by
    have := chunksWf_get? hcw hc
    rw [hCS, hNC] at this
    simpa using this
  have hdl : data.length = min (f.file_len - i * 1024) 1024 := by
    rw [hlen, hplen]
  have hfit : (i % NUM_PIECES_IN_CHUNK) * FILE_PIECE_SIZE + data.length ≤ c.length := by
    rw [hNC, hPS, hclen]
    omega
  have hgd : f.chunks.getD (i / NUM_PIECES_IN_CHUNK) [] = c := by
    simp only [List.getD_eq_getElem?_getD, ← List.get?_eq_getElem?, hc, Option.getD_some]
  have hsetst : f.state.set i = some (.alreadySet, f.state) := by
    unfold FileState.set
    rw [show f.state.raw.get? i = some true from hhas]
  have hc' : chunkSet c ((i % NUM_PIECES_IN_CHUNK) * FILE_PIECE_SIZE) data =
      some (c.take ((i % NUM_PIECES_IN_CHUNK) * FILE_PIECE_SIZE) ++ data ++
        c.drop ((i % NUM_PIECES_IN_CHUNK) * FILE_PIECE_SIZE + data.length)) := by
    unfold chunkSet
    rw [if_pos hfit]
  have hwc : (f.set_piece_written i data).chunks =
      f.chunks.set (i / NUM_PIECES_IN_CHUNK)
        (c.take ((i % NUM_PIECES_IN_CHUNK) * FILE_PIECE_SIZE) ++ data ++
          c.drop ((i % NUM_PIECES_IN_CHUNK) * FILE_PIECE_SIZE + data.length)) := by
    simp only [File.set_piece_written, hgd, File.withChunks]
  have hws : (f.set_piece_written i data).state = f.state := rfl
  have hwp : (f.set_piece_written i data).piece_len i = f.piece_len i := rfl
  have hrun : f.set_piece i data =
      some (.ok FileStateSetStatus.alreadySet, f.set_piece_written i data) := by
    unfold File.set_piece
    rw [if_pos hlen]
    simp only [hc, hc', hsetst]
    simp only [File.set_piece_written, hgd, File.withChunks, File.withState]
  refine ⟨hrun, hws, ?_⟩
  have htk : (c.take ((i % NUM_PIECES_IN_CHUNK) * FILE_PIECE_SIZE)).length =
      (i % NUM_PIECES_IN_CHUNK) * FILE_PIECE_SIZE := by
    rw [List.length_take, hNC, hPS]
    omega
  have hlenc' : (c.take ((i % NUM_PIECES_IN_CHUNK) * FILE_PIECE_SIZE) ++ data ++
      c.drop ((i % NUM_PIECES_IN_CHUNK) * FILE_PIECE_SIZE + data.length)).length = c.length := by
    simp only [List.length_append, List.length_take, List.length_drop]
    rw [hNC, hPS]
    omega
  have h2' : (f.set_piece_written i data).chunks.get? (i / NUM_PIECES_IN_CHUNK) =
      some (c.take ((i % NUM_PIECES_IN_CHUNK) * FILE_PIECE_SIZE) ++ data ++
        c.drop ((i % NUM_PIECES_IN_CHUNK) * FILE_PIECE_SIZE + data.length)) := by
    rw [hwc]
    exact get?_set_self _ _ _ hci
  have h3' : chunkGet (c.take ((i % NUM_PIECES_IN_CHUNK) * FILE_PIECE_SIZE) ++ data ++
      c.drop ((i % NUM_PIECES_IN_CHUNK) * FILE_PIECE_SIZE + data.length))
      ((i % NUM_PIECES_IN_CHUNK) * FILE_PIECE_SIZE)
      ((f.set_piece_written i data).piece_len i) = some data := by
    rw [hwp]
    unfold chunkGet
    rw [if_pos (by rw [hlenc', hNC, hPS]; omega)]
    congr 1
    have hmin : min (c.take ((i % NUM_PIECES_IN_CHUNK) * FILE_PIECE_SIZE) ++ data ++
        c.drop ((i % NUM_PIECES_IN_CHUNK) * FILE_PIECE_SIZE + data.length)).length
        ((i % NUM_PIECES_IN_CHUNK) * FILE_PIECE_SIZE + f.piece_len i) =
        (i % NUM_PIECES_IN_CHUNK) * FILE_PIECE_SIZE + data.length := by
      rw [hlenc', ← hlen, hNC, hPS]
      omega
    rw [hmin]
    have hAlen : (c.take ((i % NUM_PIECES_IN_CHUNK) * FILE_PIECE_SIZE) ++ data).length =
        (i % NUM_PIECES_IN_CHUNK) * FILE_PIECE_SIZE + data.length := by
      rw [List.length_append, htk]
    have h1 : (c.take ((i % NUM_PIECES_IN_CHUNK) * FILE_PIECE_SIZE) ++ data ++
        c.drop ((i % NUM_PIECES_IN_CHUNK) * FILE_PIECE_SIZE + data.length)).take
        ((i % NUM_PIECES_IN_CHUNK) * FILE_PIECE_SIZE + data.length) =
        c.take ((i % NUM_PIECES_IN_CHUNK) * FILE_PIECE_SIZE) ++ data := by
      rw [List.take_append_eq_append_take, hAlen, Nat.sub_self, List.take_zero,
        List.append_nil, ← hAlen, List.take_length]
    rw [h1, List.drop_append_eq_append_drop, htk, Nat.sub_self, List.drop_zero,
      List.drop_eq_nil_of_le (by rw [htk]), List.nil_append]
  exact File.get_piece_eq (show (f.set_piece_written i data).state.has i = some true from hhas)
    h2' h3'

/-- Concrete one-byte file whose single piece is already set, with byte 5. -/
def c5fileA : File := ⟨0, 1, [[5]], 1, ⟨[true], 1⟩⟩

/-- `c5fileA` after `set_piece 0 [7]`: the stored byte has changed to 7. -/
def c5fileB : File := ⟨0, 1, [[7]], 1, ⟨[true], 1⟩⟩

/-- C5, counterexample: on a one-byte file whose piece 0 was set with byte
5, calling `set_piece(0, [7])` returns `AlreadySet` but replaces the
stored bytes with `[7]`, so the piece bytes are written on `AlreadySet`
as well, contrary to the claim. -/
theorem c5_counterexample :
    (File.new 0 1).set_piece 0 [5] = some (.ok FileStateSetStatus.justSet, c5fileA) ∧
      c5fileA.set_piece 0 [7] = some (.ok FileStateSetStatus.alreadySet, c5fileB) ∧
      c5fileB.chunks ≠ c5fileA.chunks := by
  refine ⟨by decide, by decide, by decide⟩

/-- Witness for the amended C5 at a concrete input. -/
theorem c5_set_piece_already_set_witness :
    c5fileA.wf = true ∧ c5fileA.state.has 0 = some true ∧
      ([7] : List Nat).length = c5fileA.piece_len 0 ∧
      (c5fileA.set_piece 0 [7] =
          some (.ok FileStateSetStatus.alreadySet, c5fileA.set_piece_written 0 [7]) ∧
        (c5fileA.set_piece_written 0 [7]).state = c5fileA.state ∧
        (c5fileA.set_piece_written 0 [7]).get_piece 0 = some (.ok (some [7]))) :=
  ⟨by decide, by decide, by decide,
    c5_set_piece_already_set c5fileA 0 [7] (by decide) (by decide) (by decide)⟩

set_option maxRecDepth 10000 in
/-- C9: on a one-byte (one-piece) file, `File::set_piece` at the
out-of-range piece index 1 does not return the piece-index-out-of-range
error: the wrapping length subtraction makes it expect 1024 bytes, so it
returns `InvalidPieceLen` for the empty slice, and for a 1024-byte slice
it panics on the chunk-slice bounds (`none`) before the index check. -/
theorem c9_set_piece_out_of_range :
    (File.new 0 1).num_pieces = 1 ∧
      (File.new 0 1).set_piece 1 [] =
        some (.error (FileSetPieceError.invalidPieceLen 1024), File.new 0 1) ∧
      (File.new 0 1).set_piece 1 (List.replicate 1024 0) = none := by
  refine ⟨by decide, by decide, by decide⟩

/-! ## Piece queues (spec section 4.3) and the shared-file state machine
    (`shared_file.rs`) -/

/-- `FilePieceData` of the revision used by `shared_file.rs`:
`{ peer_shift, num_confirmed_owners, num_possible_owners }`. -/
structure FilePieceData where
  peer_shift : Nat
  num_confirmed_owners : Nat
  num_possible_owners : Nat
deriving DecidableEq, Repr

/-- Modelled from the spec: `PieceQueues` (spec section 4.3) — the
revision of the queue module used by `shared_file.rs` is not in the
sources.  A map keyed by the possible-owner count to a vector of piece
indices, plus a per-piece slot holding the piece's status; removal uses
swap-with-last inside the bucket; the bucket offset of a piece is
recovered from the bucket itself. -/
structure FilePiecesQueues where
  slots : List (Option FilePieceData)
  queues : List (List Nat)
deriving DecidableEq, Repr

def FilePiecesQueues.new (num_pieces : Nat) : FilePiecesQueues :=
  ⟨List.replicate num_pieces none, []⟩

/-- `Vec::swap_remove(j)`: overwrite position `j` with the last element,
then pop the last element. -/
def swapRemoveAt {α : Type} (l : List α) (j : Nat) : List α :=
  match l.getLast? with
  | none => []
  | some a => l.dropLast.set j a

/-- `get_mut_or_resize_default` (`vec_ext.rs`) applied to the bucket
vector: extend with empty buckets up to index `k`. -/
def bucketsResize (qs : List (List Nat)) (k : Nat) : List (List Nat) :=
  if qs.length ≤ k then qs ++ List.replicate (k + 1 - qs.length) [] else qs

def bucketsSet (qs : List (List Nat)) (k : Nat) (b : List Nat) : List (List Nat) :=
  (bucketsResize qs k).set k b

def bucketGet (qs : List (List Nat)) (k : Nat) : List Nat := qs.getD k []

/-- Modelled from the spec: `PieceQueues::insert`.  The caller in
`shared_file.rs` discards the `PieceAlreadyPresent` error, so the error
paths leave the queues unchanged. -/
def FilePiecesQueues.insert (q : FilePiecesQueues) (piece_idx : Nat)
    (data : FilePieceData) : FilePiecesQueues :=
  match q.slots.get? piece_idx with
  | none => q
  | some (some _) => q
  | some none =>
    ⟨q.slots.set piece_idx (some data),
      bucketsSet q.queues data.num_possible_owners
        (bucketGet q.queues data.num_possible_owners ++ [piece_idx])⟩

/-- Modelled from the spec: `PieceQueues::remove`; `none` models the
`PieceAbsent`/out-of-range error, on which every caller in
`shared_file.rs` unwraps. -/
def FilePiecesQueues.remove (q : FilePiecesQueues) (piece_idx : Nat) :
    Option (FilePieceData × FilePiecesQueues) :=
  match q.slots.get? piece_idx with
  | none => none
  | some none => none
  | some (some d) =>
    some (d, ⟨q.slots.set piece_idx none,
      bucketsSet q.queues d.num_possible_owners
        (swapRemoveAt (bucketGet q.queues d.num_possible_owners)
          ((bucketGet q.queues d.num_possible_owners).indexOf piece_idx))⟩)

/-- Modelled from the spec: `PieceQueues::next_queue` returns the bucket
whose possible-owner key is minimal among the non-empty buckets. -/
def FilePiecesQueues.next_queue (q : FilePiecesQueues) : Option (Nat × List Nat) :=
  match q.queues.findIdx? (fun b => !b.isEmpty) with
  | none => none
  | some k => some (k, bucketGet q.queues k)

/-! ### `fxhash::hash64` as used on a piece index (one hashed word) -/

def FXHASH_SEED64 : Nat := 0x517cc1b727220a95

def fxhash_rotl5 (x : Nat) : Nat := ((x <<< 5) % U64_MOD) ||| (x >>> 59)

def fxhash_hash_word (hash word : Nat) : Nat :=
  ((fxhash_rotl5 hash).xor word * FXHASH_SEED64) % U64_MOD

/-- `fxhash::hash64(&piece_idx)`: the piece index is hashed as a single
word into a fresh hasher whose state starts at 0. -/
def fxhash64 (v : Nat) : Nat := fxhash_hash_word 0 v

/-! ### SharedFile -/

/-- `SharedFileLocalStateStatus` (`shared_file.rs`); times are `Nat`. -/
inductive SharedFileLocalStateStatus
  | notSent
  | sent (time : Nat)
  | received
deriving DecidableEq, Repr

/-- `SharedFilePeerState` (`shared_file.rs`). -/
structure SharedFilePeerState where
  peer_idx : Nat
  confirmed : FileState
  possible : FileState
deriving DecidableEq, Repr

/-- `SharedFilePeer` (`shared_file.rs`). -/
structure SharedFilePeer where
  state : Option SharedFilePeerState
  local_state_status : SharedFileLocalStateStatus
deriving DecidableEq, Repr

/-- `SharedFile` (`shared_file.rs`).  `PeerId` is a `Nat`; the peers
`HashMap` is an association list with unique keys; the `sent_pieces`
`BTreeMap` is an association list sorted by (`Nat`) time. -/
structure SharedFile where
  file : File
  confirmed_remote_state : FileState
  peers : List (Nat × SharedFilePeer)
  shared_peers_order : List Nat
  piece_queues : FilePiecesQueues
  sent_pieces : List (Nat × List (Nat × Nat))
  recently_added_pieces : List Nat
deriving DecidableEq, Repr

def mapGet {β : Type} (m : List (Nat × β)) (k : Nat) : Option β :=
  match m.find? (fun p => p.1 == k) with
  | none => none
  | some p => some p.2

def mapSet {β : Type} (m : List (Nat × β)) (k : Nat) (v : β) : List (Nat × β) :=
  m.map (fun p => if p.1 == k then (k, v) else p)

def mapInsert {β : Type} (m : List (Nat × β)) (k : Nat) (v : β) : List (Nat × β) :=
  m ++ [(k, v)]

def mapRemove {β : Type} (m : List (Nat × β)) (k : Nat) : List (Nat × β) :=
  m.filter (fun p => p.1 != k)

def SharedFile.withFile (s : SharedFile) (f : File) : SharedFile :=
  ⟨f, s.confirmed_remote_state, s.peers, s.shared_peers_order, s.piece_queues,
    s.sent_pieces, s.recently_added_pieces⟩

def SharedFile.withPeers (s : SharedFile) (p : List (Nat × SharedFilePeer)) : SharedFile :=
  ⟨s.file, s.confirmed_remote_state, p, s.shared_peers_order, s.piece_queues,
    s.sent_pieces, s.recently_added_pieces⟩

def SharedFile.withQueues (s : SharedFile) (q : FilePiecesQueues) : SharedFile :=
  ⟨s.file, s.confirmed_remote_state, s.peers, s.shared_peers_order, q,
    s.sent_pieces, s.recently_added_pieces⟩

def SharedFile.withSent (s : SharedFile) (sp : List (Nat × List (Nat × Nat))) : SharedFile :=
  ⟨s.file, s.confirmed_remote_state, s.peers, s.shared_peers_order, s.piece_queues,
    sp, s.recently_added_pieces⟩

def SharedFile.withRecently (s : SharedFile) (r : List Nat) : SharedFile :=
  ⟨s.file, s.confirmed_remote_state, s.peers, s.shared_peers_order, s.piece_queues,
    s.sent_pieces, r⟩

/-- `SharedFile::new` (`shared_file.rs`). -/
def SharedFile.new (file : File) : SharedFile :=
  ⟨file, FileState.new_complete file.num_pieces, [], [],
    FilePiecesQueues.new file.num_pieces, [], []⟩

def SharedFile.num_pieces (s : SharedFile) : Nat := s.file.num_pieces

/-- `SharedFile::num_peers_with_state`. -/
def SharedFile.num_peers_with_state (s : SharedFile) : Nat :=
  s.shared_peers_order.length

inductive SharedFileAddPeerError
  | peerIsAlreadyAdded
deriving DecidableEq, Repr

inductive SharedFileAddPeerStateError
  | peerIsNotAdded
  | peerIsAlreadyHasState
  | peerInvalidStateLen (peer_len local_len : Nat)
deriving DecidableEq, Repr

inductive SharedFileRemovePeerError
  | peerIsNotAdded
deriving DecidableEq, Repr

inductive SharedFileRemovePeerStateError
  | peerIsNotAdded
  | peerStateIsAlreadyRemoved
deriving DecidableEq, Repr

inductive SharedFileSetPeerStateError
  | peerIsNotAdded
  | peerInvalidStateLen (peer_len local_len : Nat)
deriving DecidableEq, Repr

inductive SharedFileSelectPiecePeerError
  | pieceIndexOutOfRange
  | pieceIsAlreadyOwned
deriving DecidableEq, Repr

inductive SharedFileMarkStatus
  | justMarked
  | alreadyMarked
deriving DecidableEq, Repr

inductive SharedFileMarkForResendStatus
  | received
  | justMarked
  | alreadyMarked
deriving DecidableEq, Repr

inductive SharedFileMarkError
  | peerIsNotAdded
  | pieceIndexOutOfRange
  | peerStateIsNotAdded
deriving DecidableEq, Repr

inductive SharedFileAddLocalPieceError
  | setPiece (e : FileSetPieceError)
  | pieceIsAlreadySet
deriving DecidableEq, Repr

/-- `SharedFile::add_peer`. -/
def SharedFile.add_peer (s : SharedFile) (peer_id : Nat) :
    Except SharedFileAddPeerError SharedFile :=
  match mapGet s.peers peer_id with
  | some _ => .error .peerIsAlreadyAdded
  | none => .ok (s.withPeers (mapInsert s.peers peer_id ⟨none, .notSent⟩))

/-- `insert_piece` (`shared_file.rs`): the `debug_assert`s are compiled
out in release builds; the insert result is discarded by the source. -/
def insert_piece (pieces : FilePiecesQueues) (piece_idx : Nat)
    (data : FilePieceData) : FilePiecesQueues :=
  pieces.insert piece_idx data

/-- `num_piece_possible_owners` (`shared_file.rs`); `none` models the
panic of the inner `unwrap` on an out-of-range piece index. -/
def num_piece_possible_owners : List (Nat × SharedFilePeer) → Nat → Option Nat
  | [], _ => some 0
  | (_, p) :: rest, piece_idx =>
    match p.state with
    | none => num_piece_possible_owners rest piece_idx
    | some st =>
      match st.possible.has piece_idx with
      | none => none
      | some b =>
        match num_piece_possible_owners rest piece_idx with
        | none => none
        | some n => some (if b then n + 1 else n)

/-- `num_piece_confirmed_owners` (`shared_file.rs`). -/
def num_piece_confirmed_owners : List (Nat × SharedFilePeer) → Nat → Option Nat
  | [], _ => some 0
  | (_, p) :: rest, piece_idx =>
    match p.state with
    | none => num_piece_confirmed_owners rest piece_idx
    | some st =>
      match st.confirmed.has piece_idx with
      | none => none
      | some b =>
        match num_piece_confirmed_owners rest piece_idx with
        | none => none
        | some n => some (if b then n + 1 else n)

/-- The per-piece loop of `SharedFile::add_peer_state`, over the zipped
`(local, (remote, peer))` bits starting at piece index `idx`. -/
def attachLoop (max_prev_owners : Nat) :
    FilePiecesQueues → Nat → List (Bool × Bool × Bool) → Option FilePiecesQueues
  | queues, _, [] => some queues
  | queues, idx, (l, r, p) :: rest =>
    match l, r, p with
    | true, true, false =>
      attachLoop max_prev_owners
        (insert_piece queues idx ⟨0, max_prev_owners, max_prev_owners⟩) (idx + 1) rest
    | true, false, true =>
      match queues.remove idx with
      | none => none
      | some (d, queues') =>
        attachLoop max_prev_owners
          (insert_piece queues' idx
            ⟨d.peer_shift, d.num_confirmed_owners + 1, d.num_possible_owners + 1⟩)
          (idx + 1) rest
    | _, _, _ => attachLoop max_prev_owners queues (idx + 1) rest

/-- `SharedFile::add_peer_state` (private helper of `set_peer_state`). -/
def SharedFile.add_peer_state (s : SharedFile) (peer_id : Nat) (state : FileState) :
    Option (Except SharedFileAddPeerStateError Unit × SharedFile) :=
  match mapGet s.peers peer_id with
  | none => some (.error .peerIsNotAdded, s)
  | some peer =>
    if peer.state.isSome then some (.error .peerIsAlreadyHasState, s)
    else if state.len ≠ s.num_pieces then
      some (.error (.peerInvalidStateLen state.len s.num_pieces), s)
    else
      match attachLoop s.shared_peers_order.length s.piece_queues 0
          (s.file.state.raw.zip (s.confirmed_remote_state.raw.zip state.raw)) with
      | none => none
      | some queues' =>
        some (.ok (),
          ⟨s.file, s.confirmed_remote_state.bitand state,
            mapSet s.peers peer_id
              ⟨some ⟨s.shared_peers_order.length, state, state⟩, peer.local_state_status⟩,
            s.shared_peers_order ++ [peer_id], queues', s.sent_pieces,
            s.recently_added_pieces⟩)

/-- The fold recomputing `confirmed_remote_state` in
`SharedFile::remove_peer_state`. -/
def remoteFold (peers : List (Nat × SharedFilePeer)) (num_pieces : Nat) : FileState :=
  ((peers.map (fun p => p.2)).filterMap (fun p => p.state)).foldl
    (fun acc st => acc.bitand st.confirmed) (FileState.new_complete num_pieces)

/-- The per-piece loop of `SharedFile::remove_peer_state`, over the zipped
`(local, (remote, removed peer confirmed))` bits.  The owner-count
decrements are `usize` subtractions that never underflow in reachable
states. -/
def detachLoop :
    FilePiecesQueues → Nat → List (Bool × Bool × Bool) → Option FilePiecesQueues
  | queues, _, [] => some queues
  | queues, idx, (l, r, p) :: rest =>
    match l, r, p with
    | true, true, false =>
      match queues.remove idx with
      | none => none
      | some (_, queues') => detachLoop queues' (idx + 1) rest
    | true, false, true =>
      match queues.remove idx with
      | none => none
      | some (d, queues') =>
        detachLoop
          (insert_piece queues' idx
            ⟨d.peer_shift, d.num_confirmed_owners - 1, d.num_possible_owners - 1⟩)
          (idx + 1) rest
    | _, _, _ => detachLoop queues (idx + 1) rest

/-- `SharedFile::remove_peer_state`.  Effects in source order: take the
peer's state, swap-remove its index from `shared_peers_order` (without
fixing up the moved peer's stored index, as in the source), run the piece
loop against the old `confirmed_remote_state`, recompute
`confirmed_remote_state` as the fold over the remaining peers, and purge
the peer from every `sent_pieces` bucket. -/
def SharedFile.remove_peer_state (s : SharedFile) (peer_id : Nat) :
    Option (Except SharedFileRemovePeerStateError Unit × SharedFile) :=
  match mapGet s.peers peer_id with
  | none => some (.error .peerIsNotAdded, s)
  | some peer =>
    match peer.state with
    | none => some (.error .peerStateIsAlreadyRemoved, s)
    | some peer_state =>
      if peer_state.peer_idx < s.shared_peers_order.length then
        match detachLoop s.piece_queues 0
            (s.file.state.raw.zip (s.confirmed_remote_state.raw.zip peer_state.confirmed.raw)) with
        | none => none
        | some queues' =>
          some (.ok (),
            ⟨s.file,
              remoteFold (mapSet s.peers peer_id ⟨none, peer.local_state_status⟩) s.num_pieces,
              mapSet s.peers peer_id ⟨none, peer.local_state_status⟩,
              swapRemoveAt s.shared_peers_order peer_state.peer_idx, queues',
              s.sent_pieces.map (fun e => (e.1, e.2.filter (fun pp => pp.1 != peer_id))),
              s.recently_added_pieces⟩)
      else none

/-- `SharedFile::remove_peer`. -/
def SharedFile.remove_peer (s : SharedFile) (peer_id : Nat) :
    Option (Except SharedFileRemovePeerError Unit × SharedFile) :=
  match s.remove_peer_state peer_id with
  | none => none
  | some (.error .peerIsNotAdded, s1) => some (.error .peerIsNotAdded, s1)
  | some (.error .peerStateIsAlreadyRemoved, s1) | some (.ok _, s1) =>
    match mapGet s1.peers peer_id with
    | none => none
    | some _ => some (.ok (), s1.withPeers (mapRemove s1.peers peer_id))

/-- `SharedFile::set_peer_state`: detach then attach; the two
`unreachable!` arms of the source are panics. -/
def SharedFile.set_peer_state (s : SharedFile) (peer_id : Nat) (state : FileState) :
    Option (Except SharedFileSetPeerStateError Unit × SharedFile) :=
  match s.remove_peer_state peer_id with
  | none => none
  | some (.error .peerIsNotAdded, s1) => some (.error .peerIsNotAdded, s1)
  | some (.error .peerStateIsAlreadyRemoved, s1) | some (.ok _, s1) =>
    match s1.add_peer_state peer_id state with
    | none => none
    | some (.error .peerIsNotAdded, _) => none
    | some (.error .peerIsAlreadyHasState, _) => none
    | some (.error (.peerInvalidStateLen a b), s2) =>
      some (.error (.peerInvalidStateLen a b), s2)
    | some (.ok _, s2) => some (.ok (), s2)

/-- `SharedFile::set_peer_file_missing`. -/
def SharedFile.set_peer_file_missing (s : SharedFile) (peer_id : Nat) :
    Option (Except SharedFileSetPeerStateError Unit × SharedFile) :=
  s.set_peer_state peer_id (FileState.new_missing s.num_pieces)

/-- `SharedFile::set_peer_file_complete`. -/
def SharedFile.set_peer_file_complete (s : SharedFile) (peer_id : Nat) :
    Option (Except SharedFileSetPeerStateError Unit × SharedFile) :=
  s.set_peer_state peer_id (FileState.new_complete s.num_pieces)

/-- `SharedFile::add_local_piece`.  The byte write happens inside
`File::set_piece` even when the piece turns out to be `AlreadySet`; the
`assert!(confirmed ≤ possible)` is a panic when violated. -/
def SharedFile.add_local_piece (s : SharedFile) (piece_idx : Nat) (data : List Nat) :
    Option (Except SharedFileAddLocalPieceError Unit × SharedFile) :=
  match s.file.set_piece piece_idx data with
  | none => none
  | some (.error e, f') => some (.error (.setPiece e), s.withFile f')
  | some (.ok .alreadySet, f') => some (.error .pieceIsAlreadySet, s.withFile f')
  | some (.ok .justSet, f') =>
    match num_piece_confirmed_owners s.peers piece_idx with
    | none => none
    | some nco =>
      if nco = s.peers.length then
        some (.ok (),
          (s.withFile f').withRecently (s.recently_added_pieces ++ [piece_idx]))
      else
        match num_piece_possible_owners s.peers piece_idx with
        | none => none
        | some npo =>
          if nco ≤ npo then
            some (.ok (),
              ((s.withFile f').withRecently
                  (s.recently_added_pieces ++ [piece_idx])).withQueues
                (insert_piece s.piece_queues piece_idx ⟨0, nco, npo⟩))
          else none

/-- `Map::entry(time).or_default().push(entry)` on the time-ordered
`sent_pieces` map. -/
def sentPush (sp : List (Nat × List (Nat × Nat))) (time : Nat) (e : Nat × Nat) :
    List (Nat × List (Nat × Nat)) :=
  match sp with
  | [] => [(time, [e])]
  | (t, es) :: rest =>
    if time < t then (time, [e]) :: (t, es) :: rest
    else if time = t then (t, es ++ [e]) :: rest
    else (t, es) :: sentPush rest time e

/-- The stride multiplier of `SharedFile::select_piece_peer`:
`((hash >> 32) as usize % (num_peers - 1).max(1)) + 1`. -/
def piece_peer_mult (piece_idx num_peers : Nat) : Nat :=
  (fxhash64 piece_idx >>> 32) % Nat.max (num_peers - 1) 1 + 1

/-- The stride offset of `SharedFile::select_piece_peer`: the low 32 bits
of the piece hash. -/
def piece_peer_offset (piece_idx : Nat) : Nat := fxhash64 piece_idx % 4294967296

/-- The probe loop of `SharedFile::select_piece_peer`: `remaining`
probes left, current `shift`.  The peer whose `possible` bit for the
piece is still clear wins. -/
def selectLoop (piece_idx time num_peers mult offsetb : Nat) :
    SharedFile → FilePieceData → Nat → Nat →
      Option (Except SharedFileSelectPiecePeerError Nat × SharedFile)
  | s, _, _, 0 => some (.error .pieceIsAlreadyOwned, s)
  | s, piece, shift, rem + 1 =>
    match s.shared_peers_order.get? ((mult * (offsetb + shift)) % num_peers) with
    | none => none
    | some peer_id =>
      match mapGet s.peers peer_id with
      | none => none
      | some peer =>
        match peer.state with
        | none => none
        | some pst =>
          match pst.possible.set piece_idx with
          | none => none
          | some (.alreadySet, _) =>
            selectLoop piece_idx time num_peers mult offsetb s piece (shift + 1) rem
          | some (.justSet, possible') =>
            some (.ok peer_id,
              ⟨s.file, s.confirmed_remote_state,
                mapSet s.peers peer_id
                  ⟨some ⟨pst.peer_idx, pst.confirmed, possible'⟩, peer.local_state_status⟩,
                s.shared_peers_order,
                insert_piece s.piece_queues piece_idx
                  ⟨(shift + 1) % num_peers, piece.num_confirmed_owners,
                    piece.num_possible_owners + 1⟩,
                sentPush s.sent_pieces time (peer_id, piece_idx),
                s.recently_added_pieces⟩)

/-- `SharedFile::select_piece_peer`.  The stride multiplier is
`(hash_high % max(num_peers - 1, 1)) + 1` and the offset is the low 32
bits of the hash; the probe walks `num_peers` consecutive shifts starting
at the piece's `peer_shift`.  The queue `remove` unwrap is a panic when
the piece is not queued. -/
def SharedFile.select_piece_peer (s : SharedFile) (piece_idx time : Nat) :
    Option (Except SharedFileSelectPiecePeerError Nat × SharedFile) :=
  if piece_idx < s.num_pieces then
    match s.piece_queues.remove piece_idx with
    | none => none
    | some (piece, queues') =>
      selectLoop piece_idx time s.shared_peers_order.length
        (piece_peer_mult piece_idx s.shared_peers_order.length)
        (piece_peer_offset piece_idx)
        (s.withQueues queues') piece piece.peer_shift s.shared_peers_order.length
  else some (.error .pieceIndexOutOfRange, s)

/-- `SharedFile::mark_peer_piece_as_received_by_remote`. -/
def SharedFile.mark_peer_piece_as_received_by_remote (s : SharedFile)
    (peer_id piece_idx : Nat) :
    Option (Except SharedFileMarkError SharedFileMarkStatus × SharedFile) :=
  if piece_idx < s.num_pieces then
    match mapGet s.peers peer_id with
    | none => some (.error .peerIsNotAdded, s)
    | some peer =>
      match peer.state with
      | none => some (.error .peerStateIsNotAdded, s)
      | some pst =>
        match pst.confirmed.set piece_idx with
        | none => none
        | some (.alreadySet, _) => some (.ok .alreadyMarked, s)
        | some (.justSet, confirmed') =>
          match pst.possible.set piece_idx with
          | none => none
          | some (possible_status, possible') =>
            match s.file.has_piece piece_idx with
            | none => none
            | some false =>
              some (.ok .justMarked,
                s.withPeers (mapSet s.peers peer_id
                  ⟨some ⟨pst.peer_idx, confirmed', possible'⟩, peer.local_state_status⟩))
            | some true =>
              match s.piece_queues.remove piece_idx with
              | none => none
              | some (d, queues') =>
                if d.num_confirmed_owners + 1 ≤
                    (if possible_status = FileStateSetStatus.justSet then
                      d.num_possible_owners + 1 else d.num_possible_owners) then
                  some (.ok .justMarked,
                    ((s.withPeers (mapSet s.peers peer_id
                        ⟨some ⟨pst.peer_idx, confirmed', possible'⟩,
                          peer.local_state_status⟩)).withQueues
                      (insert_piece queues' piece_idx
                        ⟨d.peer_shift, d.num_confirmed_owners + 1,
                          if possible_status = FileStateSetStatus.justSet then
                            d.num_possible_owners + 1 else d.num_possible_owners⟩)))
                else none
  else some (.error .pieceIndexOutOfRange, s)

/-- `SharedFile::mark_for_resend_if_not_sent`. -/
def SharedFile.mark_for_resend_if_not_sent (s : SharedFile) (peer_id piece_idx : Nat) :
    Option (Except SharedFileMarkError SharedFileMarkForResendStatus × SharedFile) :=
  if piece_idx < s.num_pieces then
    match mapGet s.peers peer_id with
    | none => some (.error .peerIsNotAdded, s)
    | some peer =>
      match peer.state with
      | none => some (.error .peerStateIsNotAdded, s)
      | some pst =>
        match pst.confirmed.has piece_idx with
        | none => none
        | some true => some (.ok .received, s)
        | some false =>
          match pst.possible.unset piece_idx with
          | none => none
          | some (.alreadyUnset, _) => some (.ok .alreadyMarked, s)
          | some (.justUnset, possible') =>
            match s.piece_queues.remove piece_idx with
            | none => none
            | some (d, queues') =>
              some (.ok .justMarked,
                ((s.withPeers (mapSet s.peers peer_id
                    ⟨some ⟨pst.peer_idx, pst.confirmed, possible'⟩,
                      peer.local_state_status⟩)).withQueues
                  (insert_piece queues' piece_idx
                    ⟨d.peer_shift, d.num_confirmed_owners, d.num_possible_owners - 1⟩)))
  else some (.error .pieceIndexOutOfRange, s)

/-- The fold of `mark_for_resend_if_not_sent` over the expired
`(peer, piece)` entries of `SharedFile::mark_pieces_for_resend_before`. -/
def resendFold :
    SharedFile → List (Nat × Nat) →
      Option (Except SharedFileMarkError Unit × SharedFile)
  | s, [] => some (.ok (), s)
  | s, (peer_id, piece_idx) :: rest =>
    match s.mark_for_resend_if_not_sent peer_id piece_idx with
    | none => none
    | some (.error e, s1) => some (.error e, s1)
    | some (.ok _, s1) => resendFold s1 rest

/-- `SharedFile::mark_pieces_for_resend_before`: `split_off(&time)` keeps
the at-or-after entries pending and processes everything strictly before
the cutoff, in time order. -/
def SharedFile.mark_pieces_for_resend_before (s : SharedFile) (time : Nat) :
    Option (Except SharedFileMarkError Unit × SharedFile) :=
  resendFold (s.withSent (s.sent_pieces.filter (fun e => decide (time ≤ e.1))))
    ((s.sent_pieces.filter (fun e => decide (e.1 < time))).flatMap (fun e => e.2))

/-- `SharedFile::take_recently_added_pieces`. -/
def SharedFile.take_recently_added_pieces (s : SharedFile) :
    List Nat × SharedFile :=
  (s.recently_added_pieces, s.withRecently [])

/-- The probe sequence of `SharedFile::select_piece_peer`: the peer-order
positions `(mult * (offset + shift)) % num_peers` visited for the
`num_peers` consecutive shifts starting at `peer_shift`. -/
def select_probe (piece_idx num_peers peer_shift : Nat) : List Nat :=
  (List.range num_peers).map
    (fun k =>
      piece_peer_mult piece_idx num_peers *
        (piece_peer_offset piece_idx + (peer_shift + k)) % num_peers)

/-- C4, counterexample: for piece index 2 and 4 peers the multiplier
derived from `fxhash64` is 2, which is not coprime with 4, and the probe
sequence visits positions 0 and 2 twice each and never visits 1 or 3 —
not a permutation of the peers. -/
theorem c4_counterexample :
    piece_peer_mult 2 4 = 2 ∧ select_probe 2 4 0 = [0, 2, 0, 2] ∧
      ¬ (select_probe 2 4 0).Perm (List.range 4) := by
  refine ⟨by decide, by decide, by decide⟩

/-- C4 (amended): the probe sequence of `select_piece_peer` visits every
peer position exactly once over `num_peers` consecutive shifts exactly
when the derived multiplier is coprime with the peer count (which the
construction `m = hash_high % max(N-1, 1) + 1` does not guarantee for
`N ≥ 4`); when there is a single peer the probe always lands on it. -/
theorem c4_stride_probe :
    (∀ piece_idx num_peers peer_shift : Nat, 0 < num_peers →
      Nat.Coprime (piece_peer_mult piece_idx num_peers) num_peers →
      (select_probe piece_idx num_peers peer_shift).Perm (List.range num_peers)) ∧
    (∀ piece_idx peer_shift : Nat, select_probe piece_idx 1 peer_shift = [0]) := by
  constructor
  · intro piece_idx num_peers peer_shift hN hco
    have hnd : (select_probe piece_idx num_peers peer_shift).Nodup := by
      refine List.Nodup.map_on ?_ (List.nodup_range num_peers)
      intro k1 hk1 k2 hk2 heq
      rw [List.mem_range] at hk1 hk2
      have h1 : piece_peer_mult piece_idx num_peers *
          (piece_peer_offset piece_idx + (peer_shift + k1)) =
          piece_peer_mult piece_idx num_peers * (piece_peer_offset piece_idx + peer_shift) +
            piece_peer_mult piece_idx num_peers * k1 := by ring
      have h2 : piece_peer_mult piece_idx num_peers *
          (piece_peer_offset piece_idx + (peer_shift + k2)) =
          piece_peer_mult piece_idx num_peers * (piece_peer_offset piece_idx + peer_shift) +
            piece_peer_mult piece_idx num_peers * k2 := by ring
      have hmod : piece_peer_mult piece_idx num_peers * (piece_peer_offset piece_idx + peer_shift) +
          piece_peer_mult piece_idx num_peers * k1 ≡
          piece_peer_mult piece_idx num_peers * (piece_peer_offset piece_idx + peer_shift) +
            piece_peer_mult piece_idx num_peers * k2 [MOD num_peers] := by
        rw [← h1, ← h2]
        exact heq
      have hmk := Nat.ModEq.add_left_cancel'
        (piece_peer_mult piece_idx num_peers * (piece_peer_offset piece_idx + peer_shift)) hmod
      have hk := Nat.ModEq.cancel_left_of_coprime
        (by rw [Nat.gcd_comm]; exact hco) hmk
      calc k1 = k1 % num_peers := (Nat.mod_eq_of_lt hk1).symm
        _ = k2 % num_peers := hk
        _ = k2 := Nat.mod_eq_of_lt hk2
    have hsub : select_probe piece_idx num_peers peer_shift ⊆ List.range num_peers := by
      intro x hx
      rw [List.mem_range]
      unfold select_probe at hx
      obtain ⟨k, _, hk⟩ := List.mem_map.mp hx
      exact hk ▸ Nat.mod_lt _ hN
    have hlen : (List.range num_peers).length ≤
        (select_probe piece_idx num_peers peer_shift).length := by
      simp [select_probe]
    exact (hnd.subperm hsub).perm_of_length_le hlen
  · intro piece_idx peer_shift
    simp [select_probe, Nat.mod_one]

/-- Witness for the amended C4: with two peers and piece 0 the multiplier
is 1 (coprime with 2), so the probe is a permutation of the two peers. -/
theorem c4_stride_probe_witness :
    0 < 2 ∧ Nat.Coprime (piece_peer_mult 0 2) 2 ∧
      (select_probe 0 2 0).Perm (List.range 2) :=
  ⟨by decide, by decide, c4_stride_probe.1 0 2 0 (by decide) (by decide)⟩

/-! ## Peer-to-peer messages and the data channel (`message.rs`,
    `remote_peer.rs`) -/

/-- `PeerPeerMessage` (`message.rs`). -/
inductive PeerPeerMessage
  | fileMissing (sha256 : Nat)
  | fileComplete (sha256 : Nat)
  | fileState (sha256 : Nat) (state : List Bool)
  | fileStateReceived (sha256 : Nat)
  | filePiece (sha256 : Nat) (piece_idx : Nat) (bytes : List Nat)
  | filePiecesReceived (sha256 : Nat) (pieces : List Nat)
  | fileRemoved (sha256 : Nat)
deriving DecidableEq, Repr

/-- Length of the `bincode` serialization of a message (external encoding
layer; a 4-byte enum tag, 32 bytes per fingerprint, 4 bytes per piece
index, 8-byte sequence length prefixes). -/
def PeerPeerMessage.encoded_len : PeerPeerMessage → Nat
  | .fileMissing _ => 36
  | .fileComplete _ => 36
  | .fileState _ st => 44 + (st.length + 7) / 8
  | .fileStateReceived _ => 36
  | .filePiece _ _ bytes => 48 + bytes.length
  | .filePiecesReceived _ pieces => 44 + 4 * pieces.length
  | .fileRemoved _ => 36

/-- The outbound side of one `RTCDataChannel`, the external transport a
`RemotePeer` sends on: the browser-maintained outbound buffered byte
count plus the queue of messages handed to the channel. -/
structure RtcDataChannel where
  buffered_amount : Nat
  queued : List PeerPeerMessage
deriving DecidableEq, Repr

/-- `data_channel.send_with_u8_array(...)`: enqueue the serialized
message; the channel's buffered amount grows by its length. -/
def RtcDataChannel.sendRaw (ch : RtcDataChannel) (msg : PeerPeerMessage) : RtcDataChannel :=
  ⟨ch.buffered_amount + msg.encoded_len, ch.queued ++ [msg]⟩

inductive PeerConnectionSendError
  | bufferIsFilled
deriving DecidableEq, Repr

/-- `RemotePeer::send` (`remote_peer.rs`): serialize and enqueue,
unconditionally. -/
def RemotePeer.send (ch : RtcDataChannel) (msg : PeerPeerMessage) : RtcDataChannel :=
  ch.sendRaw msg

/-- `RemotePeer::send_with_max_buffer_size` (`remote_peer.rs`): enqueue
only if the channel's outbound buffered byte count is strictly below
`max_buffer_bytes`, else return `BufferIsFilled` without enqueuing. -/
def RemotePeer.send_with_max_buffer_size (ch : RtcDataChannel) (msg : PeerPeerMessage)
    (max_buffer_bytes : Nat) : Except PeerConnectionSendError RtcDataChannel :=
  if ch.buffered_amount < max_buffer_bytes then .ok (ch.sendRaw msg)
  else .error .bufferIsFilled

/-- C8: the bounded send returns `BufferIsFilled` and enqueues nothing
exactly when the buffered byte count is at or above the bound; below the
bound it serializes, enqueues and returns `Ok`; with a zero bound it
always returns `BufferIsFilled`. -/
theorem c8_send_with_max_buffer_size (ch : RtcDataChannel) (msg : PeerPeerMessage)
    (max_buffer_bytes : Nat) :
    (RemotePeer.send_with_max_buffer_size ch msg max_buffer_bytes =
        .error .bufferIsFilled ↔ max_buffer_bytes ≤ ch.buffered_amount) ∧
      (RemotePeer.send_with_max_buffer_size ch msg max_buffer_bytes = .ok ch → False) ∧
      (∀ ch' : RtcDataChannel,
        RemotePeer.send_with_max_buffer_size ch msg max_buffer_bytes = .ok ch' →
          ch'.queued = ch.queued ++ [msg] ∧ ch.buffered_amount < max_buffer_bytes) ∧
      RemotePeer.send_with_max_buffer_size ch msg 0 = .error .bufferIsFilled := by
  unfold RemotePeer.send_with_max_buffer_size
  refine ⟨?_, ?_, ?_, ?_⟩
  · by_cases h : ch.buffered_amount < max_buffer_bytes
    · rw [if_pos h]
      constructor
      · intro hc
        cases hc
      · intro hc
        omega
    · rw [if_neg h]
      constructor
      · intro _
        omega
      · intro _
        rfl
  · intro hc
    by_cases h : ch.buffered_amount < max_buffer_bytes
    · rw [if_pos h] at hc
      have := congrArg (fun c => c.queued.length) (Except.ok.inj hc)
      simp [RtcDataChannel.sendRaw] at this
    · rw [if_neg h] at hc
      cases hc
  · intro ch' hc
    by_cases h : ch.buffered_amount < max_buffer_bytes
    · rw [if_pos h] at hc
      cases hc
      exact ⟨rfl, h⟩
    · rw [if_neg h] at hc
      cases hc
  · rw [if_neg (by omega)]

/-- Witness for C8 at a concrete channel (3 buffered bytes, bound 2). -/
theorem c8_send_with_max_buffer_size_witness :
    (RemotePeer.send_with_max_buffer_size ⟨3, []⟩ (.fileMissing 0) 2 =
        .error .bufferIsFilled ↔ 2 ≤ (⟨3, []⟩ : RtcDataChannel).buffered_amount) ∧
      (RemotePeer.send_with_max_buffer_size ⟨3, []⟩ (.fileMissing 0) 2 =
        .ok ⟨3, []⟩ → False) ∧
      (∀ ch' : RtcDataChannel,
        RemotePeer.send_with_max_buffer_size ⟨3, []⟩ (.fileMissing 0) 2 = .ok ch' →
          ch'.queued = (⟨3, []⟩ : RtcDataChannel).queued ++ [.fileMissing 0] ∧
            (⟨3, []⟩ : RtcDataChannel).buffered_amount < 2) ∧
      RemotePeer.send_with_max_buffer_size ⟨3, []⟩ (.fileMissing 0) 0 =
        .error .bufferIsFilled :=
  c8_send_with_max_buffer_size ⟨3, []⟩ (.fileMissing 0) 2

/-! ## The sender loop (`local_peer.rs`, `send_pieces_to_remote_peers`) -/

/-- `usize::MAX` of the wasm32 target
(`min_possible_owners.unwrap_or(PieceNumPossibleOwners(usize::MAX))`). -/
def USIZE_MAX : Nat := 4294967295

/-- The candidate-pool loop of `LocalPeer::send_pieces_to_remote_peers`
(lines 379-409): walk the files; on a strictly smaller minimum key take
it as the new minimum and extend the pool (without clearing it) when the
key is below the file's stateful peer count; on an equal key clear the
pool first; on a greater key skip the file. -/
def sendPoolLoop :
    List SharedFile → Nat → Option Nat → List (Nat × Nat) → Option Nat × List (Nat × Nat)
  | [], _, mn, pool => (mn, pool)
  | sf :: rest, file_idx, mn, pool =>
    match sf.piece_queues.next_queue with
    | none => sendPoolLoop rest (file_idx + 1) mn pool
    | some (fmin, pieces) =>
      match compare fmin (mn.getD USIZE_MAX) with
      | .lt =>
        sendPoolLoop rest (file_idx + 1) (some fmin)
          (if fmin < sf.num_peers_with_state then
            pool ++ pieces.map (fun pi => (file_idx, pi)) else pool)
      | .eq =>
        sendPoolLoop rest (file_idx + 1) mn
          (if fmin < sf.num_peers_with_state then
            pieces.map (fun pi => (file_idx, pi)) else [])
      | .gt => sendPoolLoop rest (file_idx + 1) mn pool

/-- One candidate-pool computation of
`LocalPeer::send_pieces_to_remote_peers`. -/
def send_pieces_pool (files : List SharedFile) : Option Nat × List (Nat × Nat) :=
  sendPoolLoop files 0 none []

/-- Modelled from the spec: the cross-file selection "finds the globally
minimum possible_owners across the next_queue() of every file that still
has sharable pieces and whose possible_owners <
peers_with_state_for_that_file ... it gathers all (file, piece) pairs at
that minimum level into a candidate pool" (spec section 4.5). -/
def send_pieces_pool_spec (files : List SharedFile) : List (Nat × Nat) :=
  match ((files.enum.filterMap (fun fe =>
      match fe.2.piece_queues.next_queue with
      | none => none
      | some (q, ps) =>
        if q < fe.2.num_peers_with_state then some (fe.1, q, ps) else none)).map
        (fun e => e.2.1)).min? with
  | none => []
  | some m =>
    ((files.enum.filterMap (fun fe =>
      match fe.2.piece_queues.next_queue with
      | none => none
      | some (q, ps) =>
        if q < fe.2.num_peers_with_state then some (fe.1, q, ps) else none)).filter
        (fun e => e.2.1 == m)).flatMap (fun e => e.2.2.map (fun pi => (e.1, pi)))

/-- A three-piece shared file whose next queue is `(key, [piece_idx])`,
with six stateful peers. -/
def c2sharedFile (piece_idx key : Nat) : SharedFile :=
  ⟨File.new 0 3072, FileState.new_missing 3,
    (List.range 6).map (fun j =>
      (j + 1, ⟨some ⟨j, FileState.new_missing 3, FileState.new_missing 3⟩, .notSent⟩)),
    [1, 2, 3, 4, 5, 6],
    ⟨(List.range 3).map (fun j => if j = piece_idx then some ⟨0, key, key⟩ else none),
      List.replicate key [] ++ [[piece_idx]]⟩,
    [], []⟩

/-- A three-piece shared file whose next queue is `(2, [0])` but with
only two stateful peers, so it has nothing sharable right now. -/
def c2dSharedFile : SharedFile :=
  ⟨File.new 0 3072, FileState.new_missing 3,
    (List.range 2).map (fun j =>
      (j + 1, ⟨some ⟨j, FileState.new_missing 3, FileState.new_missing 3⟩, .notSent⟩)),
    [1, 2],
    ⟨[some ⟨0, 2, 2⟩, none, none], [[], [], [0]]⟩,
    [], []⟩

/-- C2: the code's candidate pool diverges from the claim.  With files
whose minimum-level queues are `(5,[0])`, `(3,[1])`, `(3,[2])` the pool
is `[(2,2)]` — the equal-key branch clears the piece already gathered
from the second file; with files `(5,[0])`, `(3,[1])` the pool keeps the
first file's owner-level-5 piece next to the minimum-level piece; and a
file whose minimum is not below its stateful peer count still lowers the
global minimum, emptying the pool entirely. -/
theorem c2_pool_divergence :
    (send_pieces_pool [c2sharedFile 0 5, c2sharedFile 1 3, c2sharedFile 2 3] =
        (some 3, [(2, 2)]) ∧
      send_pieces_pool_spec [c2sharedFile 0 5, c2sharedFile 1 3, c2sharedFile 2 3] =
        [(1, 1), (2, 2)]) ∧
    (send_pieces_pool [c2sharedFile 0 5, c2sharedFile 1 3] = (some 3, [(0, 0), (1, 1)]) ∧
      send_pieces_pool_spec [c2sharedFile 0 5, c2sharedFile 1 3] = [(1, 1)]) ∧
    (send_pieces_pool [c2dSharedFile, c2sharedFile 1 3] = (some 2, []) ∧
      send_pieces_pool_spec [c2dSharedFile, c2sharedFile 1 3] = [(1, 1)]) := by
  refine ⟨⟨by decide, by decide⟩, ⟨by decide, by decide⟩, by decide, by decide⟩

/-! ## C7: mark_pieces_for_resend_before -/

theorem mark_for_resend_sent_eq {s : SharedFile} {pid i : Nat}
    {r : Except SharedFileMarkError SharedFileMarkForResendStatus} {s' : SharedFile}
    (h : s.mark_for_resend_if_not_sent pid i = some (r, s')) :
    s'.sent_pieces = s.sent_pieces := by
  unfold SharedFile.mark_for_resend_if_not_sent at h
  repeat' split at h
  all_goals first
    | (cases h; rfl)
    | cases h

theorem resendFold_sent_eq :
    ∀ {entries : List (Nat × Nat)} {s : SharedFile}
      {r : Except SharedFileMarkError Unit} {s' : SharedFile},
      resendFold s entries = some (r, s') → s'.sent_pieces = s.sent_pieces := by
  intro entries
  induction entries with
  | nil =>
    intro s r s' h
    unfold resendFold at h
    cases h
    rfl
  | cons e rest ih =>
    intro s r s' h
    unfold resendFold at h
    split at h
    · cases h
    · rename_i heq
      cases h
      exact (mark_for_resend_sent_eq heq).symm ▸ rfl
    · rename_i s1 heq
      exact (ih h).trans (mark_for_resend_sent_eq heq)

/-- C7: when `mark_pieces_for_resend_before(t)` succeeds, the remaining
`sent_pieces` are exactly the entries whose send time is at or after `t`,
and the result is the state obtained by running
`mark_for_resend_if_not_sent` over every `(peer, piece)` entry sent
strictly before `t` (in time order) after dropping those entries. -/
theorem c7_mark_pieces_for_resend_before (s : SharedFile) (t : Nat) (s' : SharedFile)
    (h : s.mark_pieces_for_resend_before t = some (.ok (), s')) :
    s'.sent_pieces = s.sent_pieces.filter (fun e => decide (t ≤ e.1)) ∧
      resendFold (s.withSent (s.sent_pieces.filter (fun e => decide (t ≤ e.1))))
        ((s.sent_pieces.filter (fun e => decide (e.1 < t))).flatMap (fun e => e.2)) =
        some (.ok (), s') := by
  unfold SharedFile.mark_pieces_for_resend_before at h
  exact ⟨resendFold_sent_eq h, h⟩

/-- A one-piece shared file with its piece sent to peer 1 at time 2 and
not yet acknowledged (the state reached by `add_local_piece`, `add_peer`,
`set_peer_state` with an all-zero state, and `select_piece_peer` at
time 2). -/
def c7state : SharedFile :=
  ⟨⟨0, 1, [[9]], 1, ⟨[true], 1⟩⟩, ⟨[false], 0⟩,
    [(1, ⟨some ⟨0, ⟨[false], 0⟩, ⟨[true], 1⟩⟩, .notSent⟩)], [1],
    ⟨[some ⟨0, 0, 1⟩], [[], [0]]⟩, [(2, [(1, 0)])], []⟩

/-- `c7state` after `mark_pieces_for_resend_before 5`: the stale send is
dropped and the piece is marked possible-unowned again. -/
def c7state' : SharedFile :=
  ⟨⟨0, 1, [[9]], 1, ⟨[true], 1⟩⟩, ⟨[false], 0⟩,
    [(1, ⟨some ⟨0, ⟨[false], 0⟩, ⟨[false], 0⟩⟩, .notSent⟩)], [1],
    ⟨[some ⟨0, 0, 0⟩], [[0], []]⟩, [], []⟩

/-- Witness for C7 at a concrete run. -/
theorem c7_mark_pieces_for_resend_before_witness :
    c7state.mark_pieces_for_resend_before 5 = some (.ok (), c7state') ∧
      (c7state'.sent_pieces = c7state.sent_pieces.filter (fun e => decide (5 ≤ e.1)) ∧
        resendFold (c7state.withSent (c7state.sent_pieces.filter (fun e => decide (5 ≤ e.1))))
          ((c7state.sent_pieces.filter (fun e => decide (e.1 < 5))).flatMap (fun e => e.2)) =
          some (.ok (), c7state')) :=
  ⟨by decide, c7_mark_pieces_for_resend_before c7state 5 c7state' (by decide)⟩

/-! ## C6: confirmed ⊆ possible -/

instance optionDecidableBAll {α : Type} (P : α → Prop) [DecidablePred P] :
    (o : Option α) → Decidable (∀ a ∈ o, P a)
  | none => .isTrue (by simp)
  | some a => decidable_of_iff (P a) (by simp)

theorem getD_false_get? (l : List Bool) (j : Nat) : l.getD j false = (l.get? j).getD false := by
  simp [List.getD_eq_getElem?_getD, List.get?_eq_getElem?]

theorem getD_set_true {l : List Bool} {i j : Nat} (h : l.getD j false = true) :
    (l.set i true).getD j false = true := by
  rw [getD_false_get?] at h ⊢
  rw [List.get?_set]
  by_cases hij : i = j
  · subst hij
    rw [if_pos rfl]
    cases hg : l.get? i with
    | none => rw [hg] at h; exact Bool.noConfusion h
    | some b => simp [hg]
  · rw [if_neg hij]
    exact h

theorem getD_set_ne {l : List Bool} {i j : Nat} {a : Bool} (h : i ≠ j) :
    (l.set i a).getD j false = l.getD j false := by
  rw [getD_false_get?, getD_false_get?, List.get?_set, if_neg h]

/-- `FileState::set` returning `JustSet` sets a previously clear bit. -/
theorem FileState.set_justSet {s : FileState} {i : Nat} {s' : FileState}
    (h : s.set i = some (.justSet, s')) :
    s.raw.get? i = some false ∧ s' = ⟨s.raw.set i true, s.num_available + 1⟩ := by
  unfold FileState.set at h
  split at h
  · cases h
  · cases h
  · cases h
    exact ⟨by assumption, rfl⟩

/-- `FileState::set` returning `AlreadySet` leaves the state unchanged. -/
theorem FileState.set_alreadySet {s : FileState} {i : Nat} {s' : FileState}
    (h : s.set i = some (.alreadySet, s')) :
    s.raw.get? i = some true ∧ s' = s := by
  unfold FileState.set at h
  split at h
  · cases h
  · cases h
    exact ⟨by assumption, rfl⟩
  · cases h

/-- After any successful `FileState::set` the target bit reads true. -/
theorem FileState.set_some_getD_i {s : FileState} {i : Nat}
    {st : FileStateSetStatus} {s' : FileState} (h : s.set i = some (st, s')) :
    s'.raw.getD i false = true := by
  cases st with
  | justSet =>
    obtain ⟨hf, hs⟩ := FileState.set_justSet h
    subst hs
    show (s.raw.set i true).getD i false = true
    rw [getD_false_get?, List.get?_set, if_pos rfl, hf]
    rfl
  | alreadySet =>
    obtain ⟨ht, hs⟩ := FileState.set_alreadySet h
    subst hs
    rw [getD_false_get?, ht]
    rfl

/-- A successful `FileState::set` changes no other bit. -/
theorem FileState.set_some_getD_ne {s : FileState} {i j : Nat}
    {st : FileStateSetStatus} {s' : FileState} (h : s.set i = some (st, s'))
    (hne : i ≠ j) : s'.raw.getD j false = s.raw.getD j false := by
  cases st with
  | justSet =>
    obtain ⟨_, hs⟩ := FileState.set_justSet h
    subst hs
    exact getD_set_ne hne
  | alreadySet =>
    obtain ⟨_, hs⟩ := FileState.set_alreadySet h
    subst hs
    rfl

/-- A successful `FileState::set` preserves the bit-vector length. -/
theorem FileState.set_some_length {s : FileState} {i : Nat}
    {st : FileStateSetStatus} {s' : FileState} (h : s.set i = some (st, s')) :
    s'.raw.length = s.raw.length := by
  cases st with
  | justSet =>
    obtain ⟨_, hs⟩ := FileState.set_justSet h
    subst hs
    exact List.length_set ..
  | alreadySet =>
    obtain ⟨_, hs⟩ := FileState.set_alreadySet h
    subst hs
    rfl

/-- `FileState::unset` returning `JustUnset` clears a previously set bit. -/
theorem FileState.unset_justUnset {s : FileState} {i : Nat} {s' : FileState}
    (h : s.unset i = some (.justUnset, s')) :
    s.raw.get? i = some true ∧ s' = ⟨s.raw.set i false, s.num_available - 1⟩ := by
  unfold FileState.unset at h
  split at h
  · cases h
  · cases h
  · cases h
    exact ⟨by assumption, rfl⟩

theorem mem_mapSet_cases {β : Type} {m : List (Nat × β)} {k : Nat} {v : β} {p : Nat × β}
    (hp : p ∈ mapSet m k v) : p = (k, v) ∨ p ∈ m := by
  unfold mapSet at hp
  obtain ⟨q, hq, hqe⟩ := List.mem_map.mp hp
  by_cases h : (q.1 == k) = true
  · rw [if_pos h] at hqe
    exact Or.inl hqe.symm
  · rw [if_neg h] at hqe
    exact Or.inr (hqe ▸ hq)

theorem mapGet_mem {β : Type} {m : List (Nat × β)} {k : Nat} {v : β}
    (h : mapGet m k = some v) : (k, v) ∈ m := by
  unfold mapGet at h
  split at h
  · cases h
  · rename_i q hq
    cases h
    have hmem := List.mem_of_find?_eq_some hq
    have hkey := List.find?_some hq
    simp only [beq_iff_eq] at hkey
    have : q = (k, q.2) := by
      cases q
      simp_all
    exact this ▸ hmem

/-- The confirmed-implies-possible property over a peer map. -/
def peersConfPoss (peers : List (Nat × SharedFilePeer)) : Prop :=
  ∀ pr ∈ peers, ∀ st ∈ pr.2.state, ∀ i < st.confirmed.raw.length,
    st.confirmed.raw.getD i false = true → st.possible.raw.getD i false = true

/-- C6's invariant: for every peer with state, `confirmed ⊆ possible`
bitwise. -/
def SharedFile.confPossInv (s : SharedFile) : Prop := peersConfPoss s.peers

theorem peersConfPoss_mapSet {m : List (Nat × SharedFilePeer)} {k : Nat} {v : SharedFilePeer}
    (h : peersConfPoss m)
    (hv : ∀ st ∈ v.state, ∀ i < st.confirmed.raw.length,
      st.confirmed.raw.getD i false = true → st.possible.raw.getD i false = true) :
    peersConfPoss (mapSet m k v) := by
  intro pr hpr
  cases mem_mapSet_cases hpr with
  | inl he => exact he ▸ hv
  | inr hm => exact h pr hm

theorem peersConfPoss_mapInsert_stateless {m : List (Nat × SharedFilePeer)} {k : Nat}
    {status : SharedFileLocalStateStatus} (h : peersConfPoss m) :
    peersConfPoss (mapInsert m k ⟨none, status⟩) := by
  intro pr hpr
  unfold mapInsert at hpr
  cases List.mem_append.mp hpr with
  | inl hm => exact h pr hm
  | inr hs =>
    rw [List.mem_singleton] at hs
    subst hs
    intro st hst
    cases hst

theorem peersConfPoss_mapRemove {m : List (Nat × SharedFilePeer)} {k : Nat}
    (h : peersConfPoss m) : peersConfPoss (mapRemove m k) :=
  fun pr hpr => h pr (List.mem_of_mem_filter hpr)

theorem confPoss_add_peer {s : SharedFile} {pid : Nat} {s' : SharedFile}
    (h : s.add_peer pid = .ok s') (hs : s.confPossInv) : s'.confPossInv := by
  unfold SharedFile.add_peer at h
  split at h
  · cases h
  · cases h
    exact peersConfPoss_mapInsert_stateless hs

theorem confPoss_add_peer_state {s : SharedFile} {pid : Nat} {st : FileState}
    {r : Except SharedFileAddPeerStateError Unit} {s' : SharedFile}
    (h : s.add_peer_state pid st = some (r, s')) (hs : s.confPossInv) : s'.confPossInv := by
  unfold SharedFile.add_peer_state at h
  repeat' split at h
  all_goals try exact Option.noConfusion h
  all_goals try (cases h; exact hs)
  cases h
  refine peersConfPoss_mapSet hs ?_
  intro stx hstx
  rw [Option.mem_def, Option.some_inj] at hstx
  subst hstx
  intro i _ hc
  exact hc

theorem confPoss_remove_peer_state {s : SharedFile} {pid : Nat}
    {r : Except SharedFileRemovePeerStateError Unit} {s' : SharedFile}
    (h : s.remove_peer_state pid = some (r, s')) (hs : s.confPossInv) : s'.confPossInv := by
  unfold SharedFile.remove_peer_state at h
  repeat' split at h
  all_goals try exact Option.noConfusion h
  all_goals try (cases h; exact hs)
  cases h
  refine peersConfPoss_mapSet hs ?_
  intro stx hstx
  cases hstx

theorem confPoss_set_peer_state {s : SharedFile} {pid : Nat} {st : FileState}
    {r : Except SharedFileSetPeerStateError Unit} {s' : SharedFile}
    (h : s.set_peer_state pid st = some (r, s')) (hs : s.confPossInv) : s'.confPossInv := by
  unfold SharedFile.set_peer_state at h
  cases hrm : s.remove_peer_state pid with
  | none =>
    simp only [hrm] at h
    exact Option.noConfusion h
  | some res =>
    obtain ⟨r1, s1⟩ := res
    have hs1 : s1.confPossInv := confPoss_remove_peer_state hrm hs
    cases r1 with
    | error e =>
      cases e with
      | peerIsNotAdded =>
        simp only [hrm] at h
        cases h
        exact hs1
      | peerStateIsAlreadyRemoved =>
        simp only [hrm] at h
        cases hadd : s1.add_peer_state pid st with
        | none => simp only [hadd] at h; exact Option.noConfusion h
        | some res2 =>
          obtain ⟨r2, s2⟩ := res2
          have hs2 : s2.confPossInv := confPoss_add_peer_state hadd hs1
          cases r2 with
          | error e2 =>
            cases e2 with
            | peerIsNotAdded => simp only [hadd] at h; exact Option.noConfusion h
            | peerIsAlreadyHasState => simp only [hadd] at h; exact Option.noConfusion h
            | peerInvalidStateLen a b =>
              simp only [hadd] at h
              cases h
              exact hs2
          | ok u =>
            simp only [hadd] at h
            cases h
            exact hs2
    | ok u1 =>
      simp only [hrm] at h
      cases hadd : s1.add_peer_state pid st with
      | none => simp only [hadd] at h; exact Option.noConfusion h
      | some res2 =>
        obtain ⟨r2, s2⟩ := res2
        have hs2 : s2.confPossInv := confPoss_add_peer_state hadd hs1
        cases r2 with
        | error e2 =>
          cases e2 with
          | peerIsNotAdded => simp only [hadd] at h; exact Option.noConfusion h
          | peerIsAlreadyHasState => simp only [hadd] at h; exact Option.noConfusion h
          | peerInvalidStateLen a b =>
            simp only [hadd] at h
            cases h
            exact hs2
        | ok u =>
          simp only [hadd] at h
          cases h
          exact hs2

theorem confPoss_remove_peer {s : SharedFile} {pid : Nat}
    {r : Except SharedFileRemovePeerError Unit} {s' : SharedFile}
    (h : s.remove_peer pid = some (r, s')) (hs : s.confPossInv) : s'.confPossInv := by
  unfold SharedFile.remove_peer at h
  cases hrm : s.remove_peer_state pid with
  | none => simp only [hrm] at h; exact Option.noConfusion h
  | some res =>
    obtain ⟨r1, s1⟩ := res
    have hs1 : s1.confPossInv := confPoss_remove_peer_state hrm hs
    cases r1 with
    | error e =>
      cases e with
      | peerIsNotAdded =>
        simp only [hrm] at h
        cases h
        exact hs1
      | peerStateIsAlreadyRemoved =>
        simp only [hrm] at h
        cases hg : mapGet s1.peers pid with
        | none => simp only [hg] at h; exact Option.noConfusion h
        | some v =>
          simp only [hg] at h
          cases h
          exact peersConfPoss_mapRemove hs1
    | ok u =>
      simp only [hrm] at h
      cases hg : mapGet s1.peers pid with
      | none => simp only [hg] at h; exact Option.noConfusion h
      | some v =>
        simp only [hg] at h
        cases h
        exact peersConfPoss_mapRemove hs1

theorem confPoss_possible_set_peer {s : SharedFile} {pid piece_idx : Nat}
    {peer : SharedFilePeer} {pst : SharedFilePeerState} {possible' : FileState}
    (hg : mapGet s.peers pid = some peer) (hst : peer.state = some pst)
    (hset : pst.possible.set piece_idx = some (.justSet, possible'))
    (hs : s.confPossInv) :
    peersConfPoss (mapSet s.peers pid
      ⟨some ⟨pst.peer_idx, pst.confirmed, possible'⟩, peer.local_state_status⟩) := by
  refine peersConfPoss_mapSet hs ?_
  intro stx hstx
  rw [Option.mem_def, Option.some_inj] at hstx
  subst hstx
  intro j hj hc
  have hc' : pst.confirmed.raw.getD j false = true := hc
  have hj' : j < pst.confirmed.raw.length := hj
  show possible'.raw.getD j false = true
  have hinv := hs _ (mapGet_mem hg) pst (by rw [hst]; rfl) j hj' hc'
  obtain ⟨_, hposs⟩ := FileState.set_justSet hset
  rw [hposs]
  show ((pst.possible.raw.set piece_idx true).getD j false) = true
  exact getD_set_true hinv

theorem confPoss_selectLoop {piece_idx time num_peers mult offsetb : Nat} :
    ∀ {rem : Nat} {s : SharedFile} {piece : FilePieceData} {shift : Nat}
      {r : Except SharedFileSelectPiecePeerError Nat} {s' : SharedFile},
      selectLoop piece_idx time num_peers mult offsetb s piece shift rem = some (r, s') →
      s.confPossInv → s'.confPossInv := by
  intro rem
  induction rem with
  | zero =>
    intro s piece shift r s' h hs
    unfold selectLoop at h
    cases h
    exact hs
  | succ n ih =>
    intro s piece shift r s' h hs
    unfold selectLoop at h
    repeat' split at h
    all_goals try exact Option.noConfusion h
    all_goals try exact ih h hs
    cases h
    exact confPoss_possible_set_peer (by assumption) (by assumption) (by assumption) hs

theorem confPoss_select_piece_peer {s : SharedFile} {piece_idx time : Nat}
    {r : Except SharedFileSelectPiecePeerError Nat} {s' : SharedFile}
    (h : s.select_piece_peer piece_idx time = some (r, s')) (hs : s.confPossInv) :
    s'.confPossInv := by
  unfold SharedFile.select_piece_peer at h
  repeat' split at h
  all_goals try exact Option.noConfusion h
  all_goals try (cases h; exact hs)
  exact confPoss_selectLoop h hs

theorem confPoss_update_peer {s : SharedFile} {pid piece_idx : Nat}
    {peer : SharedFilePeer} {pst : SharedFilePeerState}
    {confirmed' possible' : FileState} {pstat : FileStateSetStatus}
    (hg : mapGet s.peers pid = some peer) (hst : peer.state = some pst)
    (hsetc : pst.confirmed.set piece_idx = some (.justSet, confirmed'))
    (hsetp : pst.possible.set piece_idx = some (pstat, possible'))
    (hs : s.confPossInv) :
    peersConfPoss (mapSet s.peers pid
      ⟨some ⟨pst.peer_idx, confirmed', possible'⟩, peer.local_state_status⟩) := by
  refine peersConfPoss_mapSet hs ?_
  intro stx hstx
  rw [Option.mem_def, Option.some_inj] at hstx
  subst hstx
  intro j hj hc
  have hc' : confirmed'.raw.getD j false = true := hc
  show possible'.raw.getD j false = true
  by_cases hji : j = piece_idx
  · subst hji
    exact FileState.set_some_getD_i hsetp
  · have hne : piece_idx ≠ j := fun he => hji he.symm
    obtain ⟨hcf, hceq⟩ := FileState.set_justSet hsetc
    have hcj : pst.confirmed.raw.getD j false = true := by
      rw [hceq] at hc'
      rw [← getD_set_ne (l := pst.confirmed.raw) (a := true) hne]
      exact hc'
    have hj' : j < pst.confirmed.raw.length := by
      have hlen := FileState.set_some_length hsetc
      have hjl : j < confirmed'.raw.length := hj
      omega
    have hinv := hs _ (mapGet_mem hg) pst (by rw [hst]; rfl) j hj' hcj
    rw [FileState.set_some_getD_ne hsetp hne]
    exact hinv

theorem confPoss_unset_peer {s : SharedFile} {pid piece_idx : Nat}
    {peer : SharedFilePeer} {pst : SharedFilePeerState} {possible' : FileState}
    (hg : mapGet s.peers pid = some peer) (hst : peer.state = some pst)
    (hconf : pst.confirmed.has piece_idx = some false)
    (hunset : pst.possible.unset piece_idx = some (.justUnset, possible'))
    (hs : s.confPossInv) :
    peersConfPoss (mapSet s.peers pid
      ⟨some ⟨pst.peer_idx, pst.confirmed, possible'⟩, peer.local_state_status⟩) := by
  refine peersConfPoss_mapSet hs ?_
  intro stx hstx
  rw [Option.mem_def, Option.some_inj] at hstx
  subst hstx
  intro j hj hc
  have hc' : pst.confirmed.raw.getD j false = true := hc
  have hj' : j < pst.confirmed.raw.length := hj
  show possible'.raw.getD j false = true
  obtain ⟨hpt, hpeq⟩ := FileState.unset_justUnset hunset
  by_cases hji : j = piece_idx
  · subst hji
    rw [getD_false_get?] at hc'
    unfold FileState.has at hconf
    rw [hconf] at hc'
    exact Bool.noConfusion hc'
  · have hinv := hs _ (mapGet_mem hg) pst (by rw [hst]; rfl) j hj' hc'
    rw [hpeq]
    show ((pst.possible.raw.set piece_idx false).getD j false) = true
    rw [getD_set_ne (fun he => hji he.symm)]
    exact hinv

theorem confPoss_mark_received {s : SharedFile} {pid piece_idx : Nat}
    {r : Except SharedFileMarkError SharedFileMarkStatus} {s' : SharedFile}
    (h : s.mark_peer_piece_as_received_by_remote pid piece_idx = some (r, s'))
    (hs : s.confPossInv) : s'.confPossInv := by
  unfold SharedFile.mark_peer_piece_as_received_by_remote at h
  repeat' split at h
  all_goals try exact Option.noConfusion h
  all_goals try (cases h; exact hs)
  all_goals cases h
  all_goals exact confPoss_update_peer (by assumption) (by assumption) (by assumption) (by assumption) hs

theorem confPoss_mark_for_resend {s : SharedFile} {pid piece_idx : Nat}
    {r : Except SharedFileMarkError SharedFileMarkForResendStatus} {s' : SharedFile}
    (h : s.mark_for_resend_if_not_sent pid piece_idx = some (r, s'))
    (hs : s.confPossInv) : s'.confPossInv := by
  unfold SharedFile.mark_for_resend_if_not_sent at h
  repeat' split at h
  all_goals try exact Option.noConfusion h
  all_goals try (cases h; exact hs)
  all_goals cases h
  all_goals exact confPoss_unset_peer (by assumption) (by assumption) (by assumption) (by assumption) hs

instance decPeersConfPoss (m : List (Nat × SharedFilePeer)) : Decidable (peersConfPoss m) := by
  unfold peersConfPoss
  infer_instance

instance decConfPossInv (s : SharedFile) : Decidable s.confPossInv := by
  unfold SharedFile.confPossInv
  infer_instance

/-- Base state for the C6 witness: a one-piece locally complete file with
one remote peer whose confirmed and possible bitmaps are clear. -/
def c6state6 : SharedFile :=
  ⟨⟨0, 1, [[9]], 1, ⟨[true], 1⟩⟩, ⟨[false], 0⟩,
    [(1, ⟨some ⟨0, ⟨[false], 0⟩, ⟨[false], 0⟩⟩, .notSent⟩)], [1],
    ⟨[some ⟨0, 0, 0⟩], [[0]]⟩, [], []⟩

/-- `c6state6` after `mark_peer_piece_as_received_by_remote 1 0`: peer 1 now
has piece 0 confirmed and possible, and the queue entry counts one confirmed
and one possible owner. -/
def c6state6M : SharedFile :=
  ⟨⟨0, 1, [[9]], 1, ⟨[true], 1⟩⟩, ⟨[false], 0⟩,
    [(1, ⟨some ⟨0, ⟨[true], 1⟩, ⟨[true], 1⟩⟩, .notSent⟩)], [1],
    ⟨[some ⟨0, 1, 1⟩], [[], [0]]⟩, [], []⟩

/-- C6: for every `SharedFile`, every peer with state and every in-range
piece index, the implication `confirmed[i] → possible[i]` is preserved by
each public mutation: `add_peer_state`, `set_peer_state`,
`select_piece_peer`, `mark_peer_piece_as_received_by_remote`,
`mark_for_resend_if_not_sent` and `remove_peer` (for every non-panicking
run, on the `Ok` and the `Err` outcome alike). -/
theorem c6_confirmed_subset_possible :
    (∀ (s : SharedFile) (pid : Nat) (st : FileState)
        (r : Except SharedFileAddPeerStateError Unit) (s' : SharedFile),
        s.add_peer_state pid st = some (r, s') → s.confPossInv → s'.confPossInv) ∧
    (∀ (s : SharedFile) (pid : Nat) (st : FileState)
        (r : Except SharedFileSetPeerStateError Unit) (s' : SharedFile),
        s.set_peer_state pid st = some (r, s') → s.confPossInv → s'.confPossInv) ∧
    (∀ (s : SharedFile) (piece_idx time : Nat)
        (r : Except SharedFileSelectPiecePeerError Nat) (s' : SharedFile),
        s.select_piece_peer piece_idx time = some (r, s') → s.confPossInv → s'.confPossInv) ∧
    (∀ (s : SharedFile) (pid piece_idx : Nat)
        (r : Except SharedFileMarkError SharedFileMarkStatus) (s' : SharedFile),
        s.mark_peer_piece_as_received_by_remote pid piece_idx = some (r, s') →
          s.confPossInv → s'.confPossInv) ∧
    (∀ (s : SharedFile) (pid piece_idx : Nat)
        (r : Except SharedFileMarkError SharedFileMarkForResendStatus) (s' : SharedFile),
        s.mark_for_resend_if_not_sent pid piece_idx = some (r, s') →
          s.confPossInv → s'.confPossInv) ∧
    (∀ (s : SharedFile) (pid : Nat)
        (r : Except SharedFileRemovePeerError Unit) (s' : SharedFile),
        s.remove_peer pid = some (r, s') → s.confPossInv → s'.confPossInv) :=
  ⟨fun _ _ _ _ _ h hs => confPoss_add_peer_state h hs,
   fun _ _ _ _ _ h hs => confPoss_set_peer_state h hs,
   fun _ _ _ _ _ h hs => confPoss_select_piece_peer h hs,
   fun _ _ _ _ _ h hs => confPoss_mark_received h hs,
   fun _ _ _ _ _ h hs => confPoss_mark_for_resend h hs,
   fun _ _ _ _ h hs => confPoss_remove_peer h hs⟩

/-- Witness for C6 at a concrete run of
`mark_peer_piece_as_received_by_remote`. -/
theorem c6_confirmed_subset_possible_witness :
    c6state6.mark_peer_piece_as_received_by_remote 1 0 =
        some (.ok .justMarked, c6state6M) ∧
      c6state6M.confPossInv :=
  ⟨by decide,
   c6_confirmed_subset_possible.2.2.2.1 c6state6 1 0 (.ok .justMarked) c6state6M
     (by decide) (by decide)⟩

/-! ## C1: `confirmed_remote_state` vs the AND of the peers' confirmed bitmaps -/

theorem keys_mapSet {β : Type} (m : List (Nat × β)) (k : Nat) (v : β) :
    (mapSet m k v).map Prod.fst = m.map Prod.fst := by
  unfold mapSet
  rw [List.map_map]
  apply List.map_congr_left
  intro p _
  by_cases h : (p.1 == k) = true
  · have hk : p.1 = k := by simpa using h
    simp only [Function.comp_apply, if_pos h]
    simp [hk]
  · simp only [Function.comp_apply, if_neg h]

theorem mem_mapSet_self {β : Type} {m : List (Nat × β)} {k : Nat} {w : β} (v : β)
    (h : (k, w) ∈ m) : (k, v) ∈ mapSet m k v := by
  unfold mapSet
  refine List.mem_map.mpr ⟨(k, w), h, ?_⟩
  rw [if_pos (by simp)]

theorem mem_mapSet_of_ne {β : Type} {m : List (Nat × β)} {k : Nat} {v : β} {p : Nat × β}
    (h : p ∈ m) (hne : p.1 ≠ k) : p ∈ mapSet m k v := by
  unfold mapSet
  refine List.mem_map.mpr ⟨p, h, ?_⟩
  rw [if_neg (by simpa using hne)]

theorem mapGet_unique {β : Type} {m : List (Nat × β)} {k : Nat} {v : β} {p : Nat × β}
    (hnd : (m.map Prod.fst).Nodup) (hg : mapGet m k = some v) (hp : p ∈ m)
    (hk : p.1 = k) : p = (k, v) := by
  induction m with
  | nil => cases hp
  | cons q rest ih =>
    rw [List.map_cons] at hnd
    have hnd' := List.nodup_cons.mp hnd
    by_cases hqk : (q.1 == k) = true
    · have hq1 : q.1 = k := by simpa using hqk
      have hfind : List.find? (fun x => x.1 == k) (q :: rest) = some q :=
        List.find?_cons_of_pos rest hqk
      have hg2 : q.2 = v := by
        unfold mapGet at hg
        rw [hfind] at hg
        simpa using hg
      cases hp with
      | head => exact Prod.ext hq1 hg2
      | tail _ hmem =>
        exfalso
        refine hnd'.1 ?_
        rw [hq1, ← hk]
        exact List.mem_map.mpr ⟨p, hmem, rfl⟩
    · have hfind : List.find? (fun x => x.1 == k) (q :: rest) =
          List.find? (fun x => x.1 == k) rest :=
        List.find?_cons_of_neg rest (by simpa using hqk)
      have hg' : mapGet rest k = some v := by
        unfold mapGet at hg ⊢
        rw [hfind] at hg
        exact hg
      cases hp with
      | head =>
        exfalso
        rw [hk] at hqk
        simp at hqk
      | tail _ hmem => exact ih hnd'.2 hg' hmem

theorem mapGet_none_not_mem {β : Type} {m : List (Nat × β)} {k : Nat}
    (h : mapGet m k = none) : k ∉ m.map Prod.fst := by
  intro hmem
  obtain ⟨p, hp, hpk⟩ := List.mem_map.mp hmem
  unfold mapGet at h
  split at h
  · rename_i hfind
    have := List.find?_eq_none.mp hfind p hp
    simp [hpk] at this
  · exact Option.noConfusion h

theorem getD_zipWith_and :
    ∀ (a b : List Bool) (i : Nat), i < a.length → i < b.length →
      (List.zipWith and a b).getD i false = and (a.getD i false) (b.getD i false) := by
  intro a
  induction a with
  | nil => intro b i h _; cases h
  | cons x xs ih =>
    intro b i ha hb
    cases b with
    | nil => cases hb
    | cons y ys =>
      cases i with
      | zero => rfl
      | succ j =>
        simp only [List.zipWith_cons_cons, List.getD_cons_succ]
        exact ih ys j (by simpa using ha) (by simpa using hb)

theorem replicate_getD (n i : Nat) (a d : Bool) (h : i < n) :
    (List.replicate n a).getD i d = a := by
  induction n generalizing i with
  | zero => cases h
  | succ m ih =>
    cases i with
    | zero => rfl
    | succ j =>
      rw [List.replicate_succ, List.getD_cons_succ]
      exact ih j (by omega)

/-- The right-hand side of C1's invariant at piece `i`: every peer with
state has `confirmed[i]` set. -/
def peersConfirmedAll (m : List (Nat × SharedFilePeer)) (i : Nat) : Prop :=
  ∀ pr ∈ m, ∀ st ∈ pr.2.state, st.confirmed.raw.getD i false = true

instance decPeersConfirmedAll (m : List (Nat × SharedFilePeer)) (i : Nat) :
    Decidable (peersConfirmedAll m i) := by
  unfold peersConfirmedAll
  infer_instance

/-- C1's claimed invariant: for every in-range piece,
`confirmed_remote_state[i]` iff every peer with state has that piece
confirmed. -/
def SharedFile.remoteInv (s : SharedFile) : Prop :=
  ∀ i < s.num_pieces,
    (s.confirmed_remote_state.raw.getD i false = true ↔ peersConfirmedAll s.peers i)

instance decRemoteInv (s : SharedFile) : Decidable s.remoteInv := by
  unfold SharedFile.remoteInv
  infer_instance

/-- Representation well-formedness carried along with C1's invariant: the
peers map has unique keys (a `HashMap` in the source) and the remote and
per-peer confirmed bitmaps have one bit per piece. -/
def SharedFile.remoteWf (s : SharedFile) : Prop :=
  (s.peers.map Prod.fst).Nodup ∧
  s.confirmed_remote_state.raw.length = s.num_pieces ∧
  ∀ pr ∈ s.peers, ∀ st ∈ pr.2.state, st.confirmed.raw.length = s.num_pieces

instance decRemoteWf (s : SharedFile) : Decidable s.remoteWf := by
  unfold SharedFile.remoteWf
  infer_instance

theorem peersConfirmedAll_mapSet_iff {m : List (Nat × SharedFilePeer)} {k : Nat}
    {w v : SharedFilePeer} {i : Nat}
    (hnd : (m.map Prod.fst).Nodup) (hg : mapGet m k = some w)
    (hQ : (∀ st ∈ v.state, st.confirmed.raw.getD i false = true) ↔
          (∀ st ∈ w.state, st.confirmed.raw.getD i false = true)) :
    peersConfirmedAll (mapSet m k v) i ↔ peersConfirmedAll m i := by
  constructor
  · intro h pr hpr
    by_cases hpk : pr.1 = k
    · have hpw : pr = (k, w) := mapGet_unique hnd hg hpr hpk
      rw [hpw]
      exact hQ.mp (h _ (mem_mapSet_self v (hpw ▸ hpr)))
    · exact h _ (mem_mapSet_of_ne hpr hpk)
  · intro h pr hpr
    cases mem_mapSet_cases hpr with
    | inl he =>
      rw [he]
      exact hQ.mpr (h _ (mapGet_mem hg))
    | inr hm => exact h _ hm

theorem peersConfirmedAll_mapInsert_none {m : List (Nat × SharedFilePeer)} {k i : Nat}
    (status : SharedFileLocalStateStatus) :
    peersConfirmedAll (mapInsert m k ⟨none, status⟩) i ↔ peersConfirmedAll m i := by
  unfold peersConfirmedAll mapInsert
  constructor
  · intro h pr hpr
    exact h pr (List.mem_append.mpr (.inl hpr))
  · intro h pr hpr
    cases List.mem_append.mp hpr with
    | inl hm => exact h pr hm
    | inr he =>
      have hpe : pr = (k, (⟨none, status⟩ : SharedFilePeer)) := by simpa using he
      rw [hpe]
      intro st hst
      simp at hst

theorem peersConfirmedAll_mapRemove_iff {m : List (Nat × SharedFilePeer)} {k : Nat}
    {w : SharedFilePeer} {i : Nat}
    (hnd : (m.map Prod.fst).Nodup) (hg : mapGet m k = some w) (hw : w.state = none) :
    peersConfirmedAll (mapRemove m k) i ↔ peersConfirmedAll m i := by
  constructor
  · intro h pr hpr
    by_cases hpk : pr.1 = k
    · have hpw : pr = (k, w) := mapGet_unique hnd hg hpr hpk
      rw [hpw]
      intro st hst
      rw [hw] at hst
      simp at hst
    · refine h _ ?_
      unfold mapRemove
      refine List.mem_filter.mpr ⟨hpr, ?_⟩
      simpa using hpk
  · intro h pr hpr
    exact h _ (List.mem_of_mem_filter hpr)

theorem foldl_bitand_length :
    ∀ (l : List SharedFilePeerState) (acc : FileState),
      (∀ st ∈ l, st.confirmed.raw.length = acc.raw.length) →
      (l.foldl (fun a st => a.bitand st.confirmed) acc).raw.length = acc.raw.length := by
  intro l
  induction l with
  | nil => intro acc _; rfl
  | cons x xs ih =>
    intro acc hlen
    rw [List.foldl_cons]
    have hx : x.confirmed.raw.length = acc.raw.length := hlen x (List.mem_cons_self x xs)
    have hb : (acc.bitand x.confirmed).raw.length = acc.raw.length := by
      unfold FileState.bitand FileState.from_raw
      simp [List.length_zipWith, hx]
    calc ((xs.foldl (fun a st => a.bitand st.confirmed) (acc.bitand x.confirmed))).raw.length
        = (acc.bitand x.confirmed).raw.length :=
          ih (acc.bitand x.confirmed)
            (fun st hst => by rw [hb]; exact hlen st (List.mem_cons_of_mem _ hst))
      _ = acc.raw.length := hb

theorem foldl_bitand_getD :
    ∀ (l : List SharedFilePeerState) (acc : FileState) (i : Nat),
      (∀ st ∈ l, st.confirmed.raw.length = acc.raw.length) → i < acc.raw.length →
      ((l.foldl (fun a st => a.bitand st.confirmed) acc).raw.getD i false = true ↔
        (acc.raw.getD i false = true ∧
          ∀ st ∈ l, st.confirmed.raw.getD i false = true)) := by
  intro l
  induction l with
  | nil =>
    intro acc i _ _
    simp [List.foldl_nil]
  | cons x xs ih =>
    intro acc i hlen hi
    rw [List.foldl_cons]
    have hx : x.confirmed.raw.length = acc.raw.length := hlen x (List.mem_cons_self x xs)
    have hb : (acc.bitand x.confirmed).raw.length = acc.raw.length := by
      unfold FileState.bitand FileState.from_raw
      simp [List.length_zipWith, hx]
    have hstep := ih (acc.bitand x.confirmed) i
      (fun st hst => by rw [hb]; exact hlen st (List.mem_cons_of_mem _ hst))
      (by rw [hb]; exact hi)
    rw [hstep]
    have hgd : (acc.bitand x.confirmed).raw.getD i false =
        and (acc.raw.getD i false) (x.confirmed.raw.getD i false) := by
      unfold FileState.bitand FileState.from_raw
      exact getD_zipWith_and _ _ i hi (by rw [hx]; exact hi)
    rw [hgd]
    constructor
    · rintro ⟨hand, hall⟩
      rw [Bool.and_eq_true] at hand
      refine ⟨hand.1, fun st hst => ?_⟩
      cases List.mem_cons.mp hst with
      | inl he => rw [he]; exact hand.2
      | inr hm => exact hall st hm
    · rintro ⟨ha, hall⟩
      refine ⟨?_, fun st hst => hall st (List.mem_cons_of_mem _ hst)⟩
      rw [Bool.and_eq_true]
      exact ⟨ha, hall x (List.mem_cons_self x xs)⟩

theorem remoteFold_spec (m : List (Nat × SharedFilePeer)) (np : Nat)
    (hlen : ∀ pr ∈ m, ∀ st ∈ pr.2.state, st.confirmed.raw.length = np) :
    (remoteFold m np).raw.length = np ∧
    ∀ i < np, ((remoteFold m np).raw.getD i false = true ↔ peersConfirmedAll m i) := by
  unfold remoteFold
  have hl : ∀ st ∈ (m.map (fun p => p.2)).filterMap (fun p => p.state),
      st.confirmed.raw.length = (FileState.new_complete np).raw.length := by
    intro st hst
    obtain ⟨p, hp, hps⟩ := List.mem_filterMap.mp hst
    obtain ⟨pr, hpr, hpe⟩ := List.mem_map.mp hp
    subst hpe
    have hmem : st ∈ pr.2.state := by rw [Option.mem_def]; exact hps
    rw [hlen pr hpr st hmem]
    simp [FileState.new_complete]
  constructor
  · rw [foldl_bitand_length _ _ hl]
    simp [FileState.new_complete]
  · intro i hi
    rw [foldl_bitand_getD _ _ i hl (by simpa [FileState.new_complete] using hi)]
    have hrep : (FileState.new_complete np).raw.getD i false = true :=
      replicate_getD np i true false hi
    rw [hrep]
    constructor
    · rintro ⟨_, hall⟩
      intro pr hpr st hst
      refine hall st ?_
      refine List.mem_filterMap.mpr ⟨pr.2, List.mem_map.mpr ⟨pr, hpr, rfl⟩, ?_⟩
      rw [Option.mem_def] at hst
      exact hst
    · intro h
      refine ⟨rfl, ?_⟩
      intro st hst
      obtain ⟨p, hp, hps⟩ := List.mem_filterMap.mp hst
      obtain ⟨pr, hpr, hpe⟩ := List.mem_map.mp hp
      subst hpe
      exact h pr hpr st (by rw [Option.mem_def]; exact hps)

/-- C1's invariant together with the representation well-formedness it
needs. -/
def SharedFile.remoteOk (s : SharedFile) : Prop := s.remoteWf ∧ s.remoteInv

instance decRemoteOk (s : SharedFile) : Decidable s.remoteOk := by
  unfold SharedFile.remoteOk
  infer_instance

/-- The forward direction of C1's invariant: a set
`confirmed_remote_state` bit is confirmed by every peer with state. -/
def SharedFile.remoteFwd (s : SharedFile) : Prop :=
  ∀ i < s.num_pieces,
    s.confirmed_remote_state.raw.getD i false = true → peersConfirmedAll s.peers i

instance decRemoteFwd (s : SharedFile) : Decidable s.remoteFwd := by
  unfold SharedFile.remoteFwd
  infer_instance

theorem not_isSome_none {α : Type} {o : Option α} (h : ¬(o.isSome = true)) : o = none := by
  cases o with
  | none => rfl
  | some a => exact absurd rfl h

theorem mapGet_mapSet_self {β : Type} {m : List (Nat × β)} {k : Nat} {w : β}
    (hg : mapGet m k = some w) (v : β) : mapGet (mapSet m k v) k = some v := by
  induction m with
  | nil =>
    unfold mapGet at hg
    simp at hg
  | cons q rest ih =>
    have hm : mapSet (q :: rest) k v =
        (if (q.1 == k) = true then (k, v) else q) :: mapSet rest k v := rfl
    by_cases hqk : (q.1 == k) = true
    · rw [hm, if_pos hqk]
      have hfind : List.find? (fun x => x.1 == k) ((k, v) :: mapSet rest k v) =
          some (k, v) :=
        List.find?_cons_of_pos _ (by simp)
      unfold mapGet
      rw [hfind]
    · have hg' : mapGet rest k = some w := by
        have hfind : List.find? (fun x => x.1 == k) (q :: rest) =
            List.find? (fun x => x.1 == k) rest :=
          List.find?_cons_of_neg rest (by simpa using hqk)
        unfold mapGet at hg ⊢
        rw [hfind] at hg
        exact hg
      have hrec := ih hg'
      rw [hm, if_neg hqk]
      have hfind2 : List.find? (fun x => x.1 == k) (q :: mapSet rest k v) =
          List.find? (fun x => x.1 == k) (mapSet rest k v) :=
        List.find?_cons_of_neg _ (by simpa using hqk)
      unfold mapGet
      rw [hfind2]
      unfold mapGet at hrec
      exact hrec

theorem remoteOk_frame {s s' : SharedFile} (h1 : s'.peers = s.peers)
    (h2 : s'.confirmed_remote_state = s.confirmed_remote_state)
    (h3 : s'.num_pieces = s.num_pieces) (hok : s.remoteOk) : s'.remoteOk := by
  obtain ⟨⟨ha, hb, hc⟩, hinv⟩ := hok
  refine ⟨⟨?_, ?_, ?_⟩, ?_⟩
  · rw [h1]
    exact ha
  · rw [h2, h3]
    exact hb
  · rw [h1, h3]
    exact hc
  · intro i hi
    rw [h3] at hi
    rw [h1, h2]
    exact hinv i hi

theorem File.set_piece_num_pieces {f : File} {i : Nat} {data : List Nat}
    {r : Except FileSetPieceError FileStateSetStatus} {f' : File}
    (h : f.set_piece i data = some (r, f')) : f'.num_pieces = f.num_pieces := by
  unfold File.set_piece at h
  repeat' split at h
  all_goals first | exact Option.noConfusion h | (cases h; rfl)

theorem add_local_piece_frame {s : SharedFile} {piece_idx : Nat} {data : List Nat}
    {r : Except SharedFileAddLocalPieceError Unit} {s' : SharedFile}
    (h : s.add_local_piece piece_idx data = some (r, s')) :
    s'.peers = s.peers ∧ s'.confirmed_remote_state = s.confirmed_remote_state ∧
      s'.num_pieces = s.num_pieces := by
  unfold SharedFile.add_local_piece at h
  repeat' split at h
  all_goals try exact Option.noConfusion h
  all_goals cases h
  all_goals exact ⟨rfl, rfl, File.set_piece_num_pieces (by assumption)⟩

theorem remote_add_local_piece {s : SharedFile} {piece_idx : Nat} {data : List Nat}
    {r : Except SharedFileAddLocalPieceError Unit} {s' : SharedFile}
    (h : s.add_local_piece piece_idx data = some (r, s')) (hok : s.remoteOk) :
    s'.remoteOk := by
  obtain ⟨h1, h2, h3⟩ := add_local_piece_frame h
  exact remoteOk_frame h1 h2 h3 hok

theorem remote_add_peer {s : SharedFile} {pid : Nat} {s' : SharedFile}
    (h : s.add_peer pid = .ok s') (hok : s.remoteOk) : s'.remoteOk := by
  obtain ⟨⟨hnd, hrl, hpl⟩, hinv⟩ := hok
  unfold SharedFile.add_peer at h
  split at h
  · exact Except.noConfusion h
  · rename_i hget
    cases h
    refine ⟨⟨?_, hrl, ?_⟩, ?_⟩
    · show ((mapInsert s.peers pid ⟨none, .notSent⟩).map Prod.fst).Nodup
      unfold mapInsert
      rw [List.map_append, List.nodup_append]
      refine ⟨hnd, by simp, ?_⟩
      intro a ha hb
      simp only [List.map_cons, List.map_nil, List.mem_singleton] at hb
      subst hb
      exact mapGet_none_not_mem hget ha
    · intro pr hpr st hst
      cases List.mem_append.mp hpr with
      | inl hm => exact hpl pr hm st hst
      | inr he =>
        have hpe : pr = (pid, (⟨none, .notSent⟩ : SharedFilePeer)) := by simpa using he
        rw [hpe] at hst
        simp at hst
    · intro i hi
      have hiff := hinv i hi
      show s.confirmed_remote_state.raw.getD i false = true ↔
        peersConfirmedAll (mapInsert s.peers pid ⟨none, .notSent⟩) i
      rw [peersConfirmedAll_mapInsert_none]
      exact hiff

theorem peersConfirmedAll_mapSet_attach {m : List (Nat × SharedFilePeer)} {k : Nat}
    {w v : SharedFilePeer} {i : Nat}
    (hnd : (m.map Prod.fst).Nodup) (hg : mapGet m k = some w) (hw : w.state = none) :
    peersConfirmedAll (mapSet m k v) i ↔
      (peersConfirmedAll m i ∧
        ∀ st ∈ v.state, st.confirmed.raw.getD i false = true) := by
  constructor
  · intro h
    refine ⟨?_, h _ (mem_mapSet_self v (mapGet_mem hg))⟩
    intro pr hpr
    by_cases hpk : pr.1 = k
    · have hpw : pr = (k, w) := mapGet_unique hnd hg hpr hpk
      rw [hpw]
      intro st hst
      have hst' : st ∈ w.state := hst
      rw [hw] at hst'
      simp at hst'
    · exact h _ (mem_mapSet_of_ne hpr hpk)
  · rintro ⟨hm, hv⟩ pr hpr
    cases mem_mapSet_cases hpr with
    | inl he =>
      rw [he]
      exact hv
    | inr hmm => exact hm _ hmm

theorem remoteOk_attach {s : SharedFile} {pid : Nat} {peer : SharedFilePeer}
    {st : FileState} (n : Nat) (order' : List Nat) (q : FilePiecesQueues)
    (hg : mapGet s.peers pid = some peer) (hpn : peer.state = none)
    (hl : st.len = s.num_pieces) (hok : s.remoteOk) :
    SharedFile.remoteOk ⟨s.file, s.confirmed_remote_state.bitand st,
      mapSet s.peers pid ⟨some ⟨n, st, st⟩, peer.local_state_status⟩,
      order', q, s.sent_pieces, s.recently_added_pieces⟩ := by
  obtain ⟨⟨hnd, hrl, hpl⟩, hinv⟩ := hok
  unfold FileState.len at hl
  have hbraw : (s.confirmed_remote_state.bitand st).raw =
      List.zipWith and s.confirmed_remote_state.raw st.raw := rfl
  refine ⟨⟨?_, ?_, ?_⟩, ?_⟩
  · show ((mapSet s.peers pid _).map Prod.fst).Nodup
    rw [keys_mapSet]
    exact hnd
  · show (s.confirmed_remote_state.bitand st).raw.length = s.num_pieces
    rw [hbraw, List.length_zipWith, hrl, hl]
    exact Nat.min_self _
  · intro pr hpr stx hstx
    cases mem_mapSet_cases hpr with
    | inl he =>
      rw [he] at hstx
      have hstx' : stx ∈ some (⟨n, st, st⟩ : SharedFilePeerState) := hstx
      rw [Option.mem_def, Option.some_inj] at hstx'
      subst hstx'
      exact hl
    | inr hm => exact hpl pr hm stx hstx
  · intro i hi
    have hi' : i < s.num_pieces := hi
    show (s.confirmed_remote_state.bitand st).raw.getD i false = true ↔
      peersConfirmedAll (mapSet s.peers pid ⟨some ⟨n, st, st⟩, peer.local_state_status⟩) i
    have hga : (s.confirmed_remote_state.bitand st).raw.getD i false =
        and (s.confirmed_remote_state.raw.getD i false) (st.raw.getD i false) := by
      rw [hbraw]
      exact getD_zipWith_and _ _ i (by omega) (by omega)
    rw [hga, Bool.and_eq_true, peersConfirmedAll_mapSet_attach hnd hg hpn,
      hinv i hi']
    constructor
    · rintro ⟨h1, h2⟩
      refine ⟨h1, ?_⟩
      intro stx hstx
      have hstx' : stx ∈ some (⟨n, st, st⟩ : SharedFilePeerState) := hstx
      rw [Option.mem_def, Option.some_inj] at hstx'
      subst hstx'
      exact h2
    · rintro ⟨h1, h2⟩
      exact ⟨h1, h2 _ rfl⟩

theorem remote_add_peer_state {s : SharedFile} {pid : Nat} {st : FileState}
    {r : Except SharedFileAddPeerStateError Unit} {s' : SharedFile}
    (h : s.add_peer_state pid st = some (r, s')) (hok : s.remoteOk) : s'.remoteOk := by
  unfold SharedFile.add_peer_state at h
  repeat' split at h
  all_goals try exact Option.noConfusion h
  all_goals try (cases h; exact hok)
  cases h
  exact remoteOk_attach _ _ _ (by assumption) (not_isSome_none (by assumption))
    (not_not.mp (by assumption)) hok

theorem remoteOk_detach {s : SharedFile} {pid : Nat} {peer : SharedFilePeer}
    (order' : List Nat) (q : FilePiecesQueues) (sent' : List (Nat × List (Nat × Nat)))
    (hok : s.remoteOk) :
    SharedFile.remoteOk ⟨s.file,
      remoteFold (mapSet s.peers pid ⟨none, peer.local_state_status⟩) s.num_pieces,
      mapSet s.peers pid ⟨none, peer.local_state_status⟩, order', q, sent',
      s.recently_added_pieces⟩ := by
  obtain ⟨⟨hnd, hrl, hpl⟩, hinv⟩ := hok
  have hlen : ∀ pr ∈ mapSet s.peers pid ⟨none, peer.local_state_status⟩,
      ∀ stx ∈ pr.2.state, stx.confirmed.raw.length = s.num_pieces := by
    intro pr hpr stx hstx
    cases mem_mapSet_cases hpr with
    | inl he =>
      rw [he] at hstx
      have hstx' : stx ∈ (none : Option SharedFilePeerState) := hstx
      simp at hstx'
    | inr hm => exact hpl pr hm stx hstx
  obtain ⟨hflen, hfiff⟩ := remoteFold_spec _ s.num_pieces hlen
  refine ⟨⟨?_, ?_, ?_⟩, ?_⟩
  · show ((mapSet s.peers pid ⟨none, peer.local_state_status⟩).map Prod.fst).Nodup
    rw [keys_mapSet]
    exact hnd
  · exact hflen
  · exact hlen
  · intro i hi
    exact hfiff i hi

theorem remote_remove_peer_state {s : SharedFile} {pid : Nat}
    {r : Except SharedFileRemovePeerStateError Unit} {s' : SharedFile}
    (h : s.remove_peer_state pid = some (r, s')) (hok : s.remoteOk) : s'.remoteOk := by
  unfold SharedFile.remove_peer_state at h
  repeat' split at h
  all_goals try exact Option.noConfusion h
  all_goals try (cases h; exact hok)
  cases h
  exact remoteOk_detach _ _ _ hok

theorem remove_peer_state_get_none {s : SharedFile} {pid : Nat}
    {r : Except SharedFileRemovePeerStateError Unit} {s1 : SharedFile}
    (h : s.remove_peer_state pid = some (r, s1))
    (hr : r ≠ .error .peerIsNotAdded) {v : SharedFilePeer}
    (hg : mapGet s1.peers pid = some v) : v.state = none := by
  unfold SharedFile.remove_peer_state at h
  cases hgp : mapGet s.peers pid with
  | none =>
    simp only [hgp] at h
    cases h
    exact absurd rfl hr
  | some peer =>
    simp only [hgp] at h
    cases hpn : peer.state with
    | none =>
      simp only [hpn] at h
      cases h
      rw [hgp] at hg
      cases hg
      exact hpn
    | some pst =>
      simp only [hpn] at h
      split at h
      · split at h
        · exact Option.noConfusion h
        · cases h
          have hg' : mapGet (mapSet s.peers pid ⟨none, peer.local_state_status⟩) pid =
              some v := hg
          rw [mapGet_mapSet_self hgp (⟨none, peer.local_state_status⟩ : SharedFilePeer)]
            at hg'
          cases hg'
          rfl
      · exact Option.noConfusion h

theorem remoteOk_remove {s : SharedFile} {pid : Nat} {v : SharedFilePeer}
    (hg : mapGet s.peers pid = some v) (hvn : v.state = none) (hok : s.remoteOk) :
    SharedFile.remoteOk (s.withPeers (mapRemove s.peers pid)) := by
  obtain ⟨⟨hnd, hrl, hpl⟩, hinv⟩ := hok
  refine ⟨⟨?_, hrl, ?_⟩, ?_⟩
  · show ((mapRemove s.peers pid).map Prod.fst).Nodup
    exact List.Nodup.sublist (List.Sublist.map _ (List.filter_sublist _)) hnd
  · intro pr hpr stx hstx
    exact hpl pr (List.mem_of_mem_filter hpr) stx hstx
  · intro i hi
    show s.confirmed_remote_state.raw.getD i false = true ↔
      peersConfirmedAll (mapRemove s.peers pid) i
    rw [peersConfirmedAll_mapRemove_iff hnd hg hvn]
    exact hinv i hi

theorem remote_remove_peer {s : SharedFile} {pid : Nat}
    {r : Except SharedFileRemovePeerError Unit} {s' : SharedFile}
    (h : s.remove_peer pid = some (r, s')) (hok : s.remoteOk) : s'.remoteOk := by
  unfold SharedFile.remove_peer at h
  cases hrm : s.remove_peer_state pid with
  | none =>
    simp only [hrm] at h
    exact Option.noConfusion h
  | some res =>
    obtain ⟨r1, s1⟩ := res
    have hok1 : s1.remoteOk := remote_remove_peer_state hrm hok
    cases r1 with
    | error e =>
      cases e with
      | peerIsNotAdded =>
        simp only [hrm] at h
        cases h
        exact hok1
      | peerStateIsAlreadyRemoved =>
        simp only [hrm] at h
        cases hg : mapGet s1.peers pid with
        | none =>
          simp only [hg] at h
          exact Option.noConfusion h
        | some v =>
          simp only [hg] at h
          cases h
          exact remoteOk_remove hg (remove_peer_state_get_none hrm (by simp) hg) hok1
    | ok u =>
      simp only [hrm] at h
      cases hg : mapGet s1.peers pid with
      | none =>
        simp only [hg] at h
        exact Option.noConfusion h
      | some v =>
        simp only [hg] at h
        cases h
        exact remoteOk_remove hg (remove_peer_state_get_none hrm (by simp) hg) hok1

theorem remote_set_peer_state {s : SharedFile} {pid : Nat} {st : FileState}
    {r : Except SharedFileSetPeerStateError Unit} {s' : SharedFile}
    (h : s.set_peer_state pid st = some (r, s')) (hok : s.remoteOk) : s'.remoteOk := by
  unfold SharedFile.set_peer_state at h
  cases hrm : s.remove_peer_state pid with
  | none =>
    simp only [hrm] at h
    exact Option.noConfusion h
  | some res =>
    obtain ⟨r1, s1⟩ := res
    have hok1 : s1.remoteOk := remote_remove_peer_state hrm hok
    cases r1 with
    | error e =>
      cases e with
      | peerIsNotAdded =>
        simp only [hrm] at h
        cases h
        exact hok1
      | peerStateIsAlreadyRemoved =>
        simp only [hrm] at h
        cases hadd : s1.add_peer_state pid st with
        | none => simp only [hadd] at h; exact Option.noConfusion h
        | some res2 =>
          obtain ⟨r2, s2⟩ := res2
          have hok2 : s2.remoteOk := remote_add_peer_state hadd hok1
          cases r2 with
          | error e2 =>
            cases e2 with
            | peerIsNotAdded => simp only [hadd] at h; exact Option.noConfusion h
            | peerIsAlreadyHasState => simp only [hadd] at h; exact Option.noConfusion h
            | peerInvalidStateLen a b =>
              simp only [hadd] at h
              cases h
              exact hok2
          | ok u =>
            simp only [hadd] at h
            cases h
            exact hok2
    | ok u1 =>
      simp only [hrm] at h
      cases hadd : s1.add_peer_state pid st with
      | none => simp only [hadd] at h; exact Option.noConfusion h
      | some res2 =>
        obtain ⟨r2, s2⟩ := res2
        have hok2 : s2.remoteOk := remote_add_peer_state hadd hok1
        cases r2 with
        | error e2 =>
          cases e2 with
          | peerIsNotAdded => simp only [hadd] at h; exact Option.noConfusion h
          | peerIsAlreadyHasState => simp only [hadd] at h; exact Option.noConfusion h
          | peerInvalidStateLen a b =>
            simp only [hadd] at h
            cases h
            exact hok2
        | ok u =>
          simp only [hadd] at h
          cases h
          exact hok2

theorem remoteOk_swap_possible {s : SharedFile} {pid : Nat} {peer : SharedFilePeer}
    {pst : SharedFilePeerState} {possible' : FileState}
    (order' : List Nat) (q : FilePiecesQueues) (sent' : List (Nat × List (Nat × Nat)))
    (rec' : List Nat)
    (hg : mapGet s.peers pid = some peer) (hst : peer.state = some pst)
    (hok : s.remoteOk) :
    SharedFile.remoteOk ⟨s.file, s.confirmed_remote_state,
      mapSet s.peers pid
        ⟨some ⟨pst.peer_idx, pst.confirmed, possible'⟩, peer.local_state_status⟩,
      order', q, sent', rec'⟩ := by
  obtain ⟨⟨hnd, hrl, hpl⟩, hinv⟩ := hok
  refine ⟨⟨?_, hrl, ?_⟩, ?_⟩
  · show ((mapSet s.peers pid _).map Prod.fst).Nodup
    rw [keys_mapSet]
    exact hnd
  · intro pr hpr stx hstx
    cases mem_mapSet_cases hpr with
    | inl he =>
      rw [he] at hstx
      have hstx' : stx ∈
          (some (⟨pst.peer_idx, pst.confirmed, possible'⟩ : SharedFilePeerState) :
            Option SharedFilePeerState) := hstx
      rw [Option.mem_def, Option.some_inj] at hstx'
      subst hstx'
      show pst.confirmed.raw.length = s.num_pieces
      exact hpl _ (mapGet_mem hg) pst (by rw [hst]; rfl)
    | inr hm => exact hpl pr hm stx hstx
  · intro i hi
    have hQ : (∀ stx ∈ (⟨some ⟨pst.peer_idx, pst.confirmed, possible'⟩,
          peer.local_state_status⟩ : SharedFilePeer).state,
            stx.confirmed.raw.getD i false = true) ↔
        (∀ stx ∈ peer.state, stx.confirmed.raw.getD i false = true) := by
      constructor
      · intro hv stx hstx
        rw [hst, Option.mem_def, Option.some_inj] at hstx
        subst hstx
        exact hv ⟨pst.peer_idx, pst.confirmed, possible'⟩ (by rw [Option.mem_def])
      · intro hw stx hstx
        have hstx' : stx ∈
            (some (⟨pst.peer_idx, pst.confirmed, possible'⟩ : SharedFilePeerState) :
              Option SharedFilePeerState) := hstx
        rw [Option.mem_def, Option.some_inj] at hstx'
        subst hstx'
        show pst.confirmed.raw.getD i false = true
        exact hw pst (by rw [hst]; rfl)
    show s.confirmed_remote_state.raw.getD i false = true ↔
      peersConfirmedAll (mapSet s.peers pid
        ⟨some ⟨pst.peer_idx, pst.confirmed, possible'⟩, peer.local_state_status⟩) i
    rw [peersConfirmedAll_mapSet_iff hnd hg hQ]
    exact hinv i hi

theorem remote_selectLoop {piece_idx time num_peers mult offsetb : Nat} :
    ∀ {rem : Nat} {s : SharedFile} {piece : FilePieceData} {shift : Nat}
      {r : Except SharedFileSelectPiecePeerError Nat} {s' : SharedFile},
      selectLoop piece_idx time num_peers mult offsetb s piece shift rem = some (r, s') →
      s.remoteOk → s'.remoteOk := by
  intro rem
  induction rem with
  | zero =>
    intro s piece shift r s' h hok
    unfold selectLoop at h
    cases h
    exact hok
  | succ n ih =>
    intro s piece shift r s' h hok
    unfold selectLoop at h
    repeat' split at h
    all_goals try exact Option.noConfusion h
    all_goals try exact ih h hok
    cases h
    exact remoteOk_swap_possible _ _ _ _ (by assumption) (by assumption) hok

theorem remote_select_piece_peer {s : SharedFile} {piece_idx time : Nat}
    {r : Except SharedFileSelectPiecePeerError Nat} {s' : SharedFile}
    (h : s.select_piece_peer piece_idx time = some (r, s')) (hok : s.remoteOk) :
    s'.remoteOk := by
  unfold SharedFile.select_piece_peer at h
  repeat' split at h
  all_goals try exact Option.noConfusion h
  all_goals try (cases h; exact hok)
  exact remote_selectLoop h hok

theorem remote_mark_for_resend {s : SharedFile} {pid piece_idx : Nat}
    {r : Except SharedFileMarkError SharedFileMarkForResendStatus} {s' : SharedFile}
    (h : s.mark_for_resend_if_not_sent pid piece_idx = some (r, s'))
    (hok : s.remoteOk) : s'.remoteOk := by
  unfold SharedFile.mark_for_resend_if_not_sent at h
  repeat' split at h
  all_goals try exact Option.noConfusion h
  all_goals try (cases h; exact hok)
  cases h
  exact remoteOk_swap_possible _ _ _ _ (by assumption) (by assumption) hok

theorem remote_resendFold :
    ∀ (l : List (Nat × Nat)) {s : SharedFile} {r : Except SharedFileMarkError Unit}
      {s' : SharedFile}, resendFold s l = some (r, s') → s.remoteOk → s'.remoteOk := by
  intro l
  induction l with
  | nil =>
    intro s r s' h hok
    unfold resendFold at h
    cases h
    exact hok
  | cons e rest ih =>
    intro s r s' h hok
    unfold resendFold at h
    split at h
    · exact Option.noConfusion h
    · cases h
      exact remote_mark_for_resend (by assumption) hok
    · exact ih h (remote_mark_for_resend (by assumption) hok)

theorem remote_mark_pieces_before {s : SharedFile} {time : Nat}
    {r : Except SharedFileMarkError Unit} {s' : SharedFile}
    (h : s.mark_pieces_for_resend_before time = some (r, s')) (hok : s.remoteOk) :
    s'.remoteOk := by
  unfold SharedFile.mark_pieces_for_resend_before at h
  have hok2 : (s.withSent
      (s.sent_pieces.filter (fun e => decide (time ≤ e.1)))).remoteOk := hok
  exact remote_resendFold _ h hok2

theorem remoteFwd_confirm_set {s : SharedFile} {pid piece_idx : Nat}
    {peer : SharedFilePeer} {pst : SharedFilePeerState} {confirmed' possible' : FileState}
    (q : FilePiecesQueues)
    (hg : mapGet s.peers pid = some peer) (hst : peer.state = some pst)
    (hsetc : pst.confirmed.set piece_idx = some (.justSet, confirmed'))
    (hok : s.remoteOk) :
    SharedFile.remoteWf ⟨s.file, s.confirmed_remote_state,
      mapSet s.peers pid
        ⟨some ⟨pst.peer_idx, confirmed', possible'⟩, peer.local_state_status⟩,
      s.shared_peers_order, q, s.sent_pieces, s.recently_added_pieces⟩ ∧
    SharedFile.remoteFwd ⟨s.file, s.confirmed_remote_state,
      mapSet s.peers pid
        ⟨some ⟨pst.peer_idx, confirmed', possible'⟩, peer.local_state_status⟩,
      s.shared_peers_order, q, s.sent_pieces, s.recently_added_pieces⟩ := by
  obtain ⟨⟨hnd, hrl, hpl⟩, hinv⟩ := hok
  obtain ⟨hcf, hceq⟩ := FileState.set_justSet hsetc
  refine ⟨⟨?_, hrl, ?_⟩, ?_⟩
  · show ((mapSet s.peers pid _).map Prod.fst).Nodup
    rw [keys_mapSet]
    exact hnd
  · intro pr hpr stx hstx
    cases mem_mapSet_cases hpr with
    | inl he =>
      rw [he] at hstx
      have hstx' : stx ∈
          (some (⟨pst.peer_idx, confirmed', possible'⟩ : SharedFilePeerState) :
            Option SharedFilePeerState) := hstx
      rw [Option.mem_def, Option.some_inj] at hstx'
      subst hstx'
      show confirmed'.raw.length = s.num_pieces
      rw [hceq]
      show (pst.confirmed.raw.set piece_idx true).length = s.num_pieces
      rw [List.length_set]
      exact hpl _ (mapGet_mem hg) pst (by rw [hst]; rfl)
    | inr hm => exact hpl pr hm stx hstx
  · intro i hi hbit
    have hall := (hinv i hi).mp hbit
    intro pr hpr
    cases mem_mapSet_cases hpr with
    | inl he =>
      rw [he]
      intro stx hstx
      have hstx' : stx ∈
          (some (⟨pst.peer_idx, confirmed', possible'⟩ : SharedFilePeerState) :
            Option SharedFilePeerState) := hstx
      rw [Option.mem_def, Option.some_inj] at hstx'
      subst hstx'
      show confirmed'.raw.getD i false = true
      rw [hceq]
      show (pst.confirmed.raw.set piece_idx true).getD i false = true
      exact getD_set_true (hall _ (mapGet_mem hg) pst (by rw [hst]; rfl))
    | inr hm => exact hall pr hm

theorem remote_mark_received {s : SharedFile} {pid piece_idx : Nat}
    {r : Except SharedFileMarkError SharedFileMarkStatus} {s' : SharedFile}
    (h : s.mark_peer_piece_as_received_by_remote pid piece_idx = some (r, s'))
    (hok : s.remoteOk) : s'.remoteWf ∧ s'.remoteFwd := by
  unfold SharedFile.mark_peer_piece_as_received_by_remote at h
  by_cases hlt : piece_idx < s.num_pieces
  · rw [if_pos hlt] at h
    cases hgp : mapGet s.peers pid with
    | none =>
      simp only [hgp] at h
      cases h
      exact ⟨hok.1, fun i hi hb => (hok.2 i hi).mp hb⟩
    | some peer =>
      simp only [hgp] at h
      cases hps : peer.state with
      | none =>
        simp only [hps] at h
        cases h
        exact ⟨hok.1, fun i hi hb => (hok.2 i hi).mp hb⟩
      | some pst =>
        simp only [hps] at h
        cases hcs : pst.confirmed.set piece_idx with
        | none =>
          simp only [hcs] at h
          exact Option.noConfusion h
        | some cres =>
          obtain ⟨cstat, confirmed'⟩ := cres
          cases cstat with
          | alreadySet =>
            simp only [hcs] at h
            cases h
            exact ⟨hok.1, fun i hi hb => (hok.2 i hi).mp hb⟩
          | justSet =>
            simp only [hcs] at h
            cases hpsv : pst.possible.set piece_idx with
            | none =>
              simp only [hpsv] at h
              exact Option.noConfusion h
            | some pres =>
              obtain ⟨pstat, possible'⟩ := pres
              simp only [hpsv] at h
              cases hhp : s.file.has_piece piece_idx with
              | none =>
                simp only [hhp] at h
                exact Option.noConfusion h
              | some b =>
                cases b with
                | false =>
                  simp only [hhp] at h
                  cases h
                  exact remoteFwd_confirm_set _ hgp hps hcs hok
                | true =>
                  simp only [hhp] at h
                  cases hq : s.piece_queues.remove piece_idx with
                  | none =>
                    simp only [hq] at h
                    exact Option.noConfusion h
                  | some qres =>
                    obtain ⟨d, queues'⟩ := qres
                    simp only [hq] at h
                    split at h
                    all_goals split at h
                    all_goals try exact Option.noConfusion h
                    all_goals cases h
                    all_goals exact remoteFwd_confirm_set _ hgp hps hcs hok
  · rw [if_neg hlt] at h
    cases h
    exact ⟨hok.1, fun i hi hb => (hok.2 i hi).mp hb⟩

/-- C1 counterexample state: a one-piece file, locally missing, with one
remote peer whose confirmed bitmap is clear; `confirmed_remote_state` is
clear too, so the claimed invariant holds. -/
def c1state : SharedFile :=
  ⟨⟨0, 1, [[0]], 1, ⟨[false], 0⟩⟩, ⟨[false], 0⟩,
    [(1, ⟨some ⟨0, ⟨[false], 0⟩, ⟨[false], 0⟩⟩, .notSent⟩)], [1], ⟨[], []⟩, [], []⟩

/-- `c1state` after `mark_peer_piece_as_received_by_remote 1 0`: the peer's
confirmed bit is set but `confirmed_remote_state` is left clear. -/
def c1stateM : SharedFile :=
  ⟨⟨0, 1, [[0]], 1, ⟨[false], 0⟩⟩, ⟨[false], 0⟩,
    [(1, ⟨some ⟨0, ⟨[true], 1⟩, ⟨[true], 1⟩⟩, .notSent⟩)], [1], ⟨[], []⟩, [], []⟩

/-- C1 counterexample: `mark_peer_piece_as_received_by_remote` does not
update `confirmed_remote_state`, so from a state satisfying the claimed
iff invariant it reaches a state where the AND over the peers' confirmed
bitmaps is true at piece 0 while `confirmed_remote_state[0]` stays false:
the claimed iff fails after this mutation. -/
theorem c1_counterexample :
    c1state.remoteOk ∧
    c1state.mark_peer_piece_as_received_by_remote 1 0 =
      some (.ok .justMarked, c1stateM) ∧
    ¬ c1stateM.remoteInv := by decide

/-- C1 (amended): the iff invariant "`confirmed_remote_state[i]` iff every
peer with state has `confirmed[i]`" (together with the map/bitmap
well-formedness it presumes) is preserved by `add_peer`,
`set_peer_state`, `remove_peer`, `add_local_piece`, `select_piece_peer`,
`mark_for_resend_if_not_sent` and `mark_pieces_for_resend_before`; but
`mark_peer_piece_as_received_by_remote` preserves only the forward
direction (a set `confirmed_remote_state` bit stays below the AND), not
the iff: it sets a peer's confirmed bit without updating
`confirmed_remote_state`, which is recomputed only when a peer state is
next removed or replaced. -/
theorem c1_confirmed_remote_state_invariant :
    (∀ (s : SharedFile) (pid : Nat) (s' : SharedFile),
        s.add_peer pid = .ok s' → s.remoteOk → s'.remoteOk) ∧
    (∀ (s : SharedFile) (pid : Nat) (st : FileState)
        (r : Except SharedFileSetPeerStateError Unit) (s' : SharedFile),
        s.set_peer_state pid st = some (r, s') → s.remoteOk → s'.remoteOk) ∧
    (∀ (s : SharedFile) (pid : Nat)
        (r : Except SharedFileRemovePeerError Unit) (s' : SharedFile),
        s.remove_peer pid = some (r, s') → s.remoteOk → s'.remoteOk) ∧
    (∀ (s : SharedFile) (piece_idx : Nat) (data : List Nat)
        (r : Except SharedFileAddLocalPieceError Unit) (s' : SharedFile),
        s.add_local_piece piece_idx data = some (r, s') → s.remoteOk → s'.remoteOk) ∧
    (∀ (s : SharedFile) (piece_idx time : Nat)
        (r : Except SharedFileSelectPiecePeerError Nat) (s' : SharedFile),
        s.select_piece_peer piece_idx time = some (r, s') → s.remoteOk → s'.remoteOk) ∧
    (∀ (s : SharedFile) (pid piece_idx : Nat)
        (r : Except SharedFileMarkError SharedFileMarkForResendStatus) (s' : SharedFile),
        s.mark_for_resend_if_not_sent pid piece_idx = some (r, s') →
          s.remoteOk → s'.remoteOk) ∧
    (∀ (s : SharedFile) (time : Nat)
        (r : Except SharedFileMarkError Unit) (s' : SharedFile),
        s.mark_pieces_for_resend_before time = some (r, s') → s.remoteOk → s'.remoteOk) ∧
    (∀ (s : SharedFile) (pid piece_idx : Nat)
        (r : Except SharedFileMarkError SharedFileMarkStatus) (s' : SharedFile),
        s.mark_peer_piece_as_received_by_remote pid piece_idx = some (r, s') →
          s.remoteOk → s'.remoteWf ∧ s'.remoteFwd) :=
  ⟨fun _ _ _ h hok => remote_add_peer h hok,
   fun _ _ _ _ _ h hok => remote_set_peer_state h hok,
   fun _ _ _ _ h hok => remote_remove_peer h hok,
   fun _ _ _ _ _ h hok => remote_add_local_piece h hok,
   fun _ _ _ _ _ h hok => remote_select_piece_peer h hok,
   fun _ _ _ _ _ h hok => remote_mark_for_resend h hok,
   fun _ _ _ _ h hok => remote_mark_pieces_before h hok,
   fun _ _ _ _ _ h hok => remote_mark_received h hok⟩

/-- Witness for C1 at a concrete run of
`mark_peer_piece_as_received_by_remote`: the forward direction survives
while (per `c1_counterexample`) the iff does not. -/
theorem c1_confirmed_remote_state_invariant_witness :
    c1state.mark_peer_piece_as_received_by_remote 1 0 =
        some (.ok .justMarked, c1stateM) ∧
      (c1stateM.remoteWf ∧ c1stateM.remoteFwd) :=
  ⟨by decide,
   c1_confirmed_remote_state_invariant.2.2.2.2.2.2.2 c1state 1 0
     (.ok .justMarked) c1stateM (by decide) (by decide)⟩

/-! ## C3: the sender tick and the buffer-full signal
(`local_peer.rs`, `send_pieces_to_remote_peers`, lines 415-444) -/

/-- `Vec::swap_remove(idx)`: return the element at `idx` and the vector
with the last element moved into its place. -/
def vecSwapRemove (l : List (Nat × Nat)) (i : Nat) :
    Option ((Nat × Nat) × List (Nat × Nat)) :=
  match l.get? i with
  | none => none
  | some e =>
    match l.getLast? with
    | none => none
    | some a => some (e, (l.set i a).dropLast)

/-- One send event of the sender tick: destination peer, message, and
whether it was enqueued (`false` = the bounded send refused it). -/
abbrev SendEvent : Type := Nat × PeerPeerMessage × Bool

/-- The inner send loop of `LocalPeer::send_pieces_to_remote_peers`:
draw a random candidate, select its destination peer, read the piece
bytes and send.  `unwrap` panics are `none`; the `BufferIsFilled` arm
`return`s from the whole function, modelled by the final `Bool`
(aborted).  The fuel is instantiated with the candidate-pool length. -/
def sendInnerLoop (maxb : Option Nat) (time : Nat) :
    Nat → List SharedFile → List (Nat × RtcDataChannel) → Nat → List (Nat × Nat) →
      List Nat → List SendEvent →
      Option (List SharedFile × List (Nat × RtcDataChannel) × Nat × List Nat ×
        List SendEvent × Bool)
  | 0, files, chans, num, pool, rng, trace =>
    match num, pool with
    | 0, _ => some (files, chans, 0, rng, trace, false)
    | n + 1, [] => some (files, chans, n + 1, rng, trace, false)
    | _ + 1, _ :: _ => none
  | fuel + 1, files, chans, num, pool, rng, trace =>
    match num, pool with
    | 0, _ => some (files, chans, 0, rng, trace, false)
    | n + 1, [] => some (files, chans, n + 1, rng, trace, false)
    | n + 1, p :: ps =>
      match vecSwapRemove (p :: ps) (rng.headD 0 % (p :: ps).length) with
      | none => none
      | some (fp, pool') =>
        match files.get? fp.1 with
        | none => none
        | some sf =>
          match sf.select_piece_peer fp.2 time with
          | none => none
          | some (.error _, _) => none
          | some (.ok peer_id, sf') =>
            match sf'.file.get_piece fp.2 with
            | none => none
            | some (.error _) => none
            | some (.ok none) => none
            | some (.ok (some bytes)) =>
              match mapGet chans peer_id with
              | none => none
              | some ch =>
                match maxb with
                | none =>
                  sendInnerLoop maxb time fuel (files.set fp.1 sf')
                    (mapSet chans peer_id
                      (RemotePeer.send ch (.filePiece sf'.file.sha256 fp.2 bytes)))
                    n pool' rng.tail
                    (trace ++ [(peer_id, .filePiece sf'.file.sha256 fp.2 bytes, true)])
                | some mx =>
                  match RemotePeer.send_with_max_buffer_size ch
                      (.filePiece sf'.file.sha256 fp.2 bytes) mx with
                  | .ok ch' =>
                    sendInnerLoop maxb time fuel (files.set fp.1 sf')
                      (mapSet chans peer_id ch') n pool' rng.tail
                      (trace ++ [(peer_id, .filePiece sf'.file.sha256 fp.2 bytes, true)])
                  | .error .bufferIsFilled =>
                    some (files.set fp.1 sf', chans, n + 1, rng.tail,
                      trace ++ [(peer_id, .filePiece sf'.file.sha256 fp.2 bytes, false)],
                      true)

/-- The outer `while num_pieces_to_be_sent > 0` loop of
`LocalPeer::send_pieces_to_remote_peers`: recompute the candidate pool,
stop when it is empty, otherwise run the inner loop; an aborted inner
loop (`BufferIsFilled`) returns from the function. -/
def sendOuterLoop (maxb : Option Nat) (time : Nat) :
    Nat → List SharedFile → List (Nat × RtcDataChannel) → Nat → List Nat →
      List SendEvent →
      Option (List SharedFile × List (Nat × RtcDataChannel) × List SendEvent)
  | 0, files, chans, num, _, trace =>
    match num with
    | 0 => some (files, chans, trace)
    | _ + 1 => none
  | ofuel + 1, files, chans, num, rng, trace =>
    match num with
    | 0 => some (files, chans, trace)
    | n + 1 =>
      match send_pieces_pool files with
      | (_, []) => some (files, chans, trace)
      | (_, p :: ps) =>
        match sendInnerLoop maxb time (p :: ps).length files chans (n + 1) (p :: ps)
            rng trace with
        | none => none
        | some (files', chans', num', rng', trace', aborted) =>
          if aborted then some (files', chans', trace')
          else sendOuterLoop maxb time ofuel files' chans' num' rng' trace'

/-- `LocalPeer::send_pieces_to_remote_peers`, over the file list, the
peers' data channels, the pieces-per-tick budget, the optional buffer
bound and the pre-drawn random draws; returns the final files, channels
and the trace of send events. -/
def send_pieces_to_remote_peers (files : List SharedFile)
    (chans : List (Nat × RtcDataChannel)) (num : Nat) (maxb : Option Nat)
    (time : Nat) (rng : List Nat) :
    Option (List SharedFile × List (Nat × RtcDataChannel) × List SendEvent) :=
  sendOuterLoop maxb time (num + 1) files chans num rng []

/-- One-piece locally complete file shared with peer 1 only. -/
def c3fileA : SharedFile :=
  ⟨⟨10, 1, [[7]], 1, ⟨[true], 1⟩⟩, ⟨[false], 0⟩,
    [(1, ⟨some ⟨0, FileState.new_missing 1, FileState.new_missing 1⟩, .notSent⟩)], [1],
    ⟨[some ⟨0, 0, 0⟩], [[0]]⟩, [], []⟩

/-- One-piece locally complete file shared with peer 2 only. -/
def c3fileB : SharedFile :=
  ⟨⟨20, 1, [[9]], 1, ⟨[true], 1⟩⟩, ⟨[false], 0⟩,
    [(2, ⟨some ⟨0, FileState.new_missing 1, FileState.new_missing 1⟩, .notSent⟩)], [2],
    ⟨[some ⟨0, 0, 0⟩], [[0]]⟩, [], []⟩

/-- C3 counterexample: with a budget of two pieces, a bound of one byte,
peer 2's channel full and peer 1's channel empty, the tick stops at the
refused send to peer 2: the trace holds only that refused event, peer 1's
channel is untouched, file A's piece for peer 1 is still queued — yet the
bounded send of that piece on peer 1's empty link would have succeeded.
The buffer-full signal stops the whole tick, not just the affected
link. -/
theorem c3_counterexample :
    ((send_pieces_to_remote_peers [c3fileA, c3fileB]
        [(1, ⟨0, []⟩), (2, ⟨5, []⟩)] 2 (some 1) 0 [0, 0]).map (fun rz => rz.2.2) =
      some [(2, .filePiece 20 0 [9], false)]) ∧
    ((send_pieces_to_remote_peers [c3fileA, c3fileB]
        [(1, ⟨0, []⟩), (2, ⟨5, []⟩)] 2 (some 1) 0 [0, 0]).map
        (fun rz => mapGet rz.2.1 1) = some (some ⟨0, []⟩)) ∧
    ((send_pieces_to_remote_peers [c3fileA, c3fileB]
        [(1, ⟨0, []⟩), (2, ⟨5, []⟩)] 2 (some 1) 0 [0, 0]).map
        (fun rz => (rz.1.get? 0).map (fun f => f.piece_queues.next_queue)) =
      some (some (some (0, [0])))) ∧
    RemotePeer.send_with_max_buffer_size ⟨0, []⟩ (.filePiece 10 0 [7]) 1 =
      .ok ⟨49, [.filePiece 10 0 [7]]⟩ := by
  refine ⟨by decide, by decide, by decide, by decide⟩

theorem mem_dropLast {α : Type} {l : List α} {e : α} (h : e ∈ l.dropLast) : e ∈ l :=
  (List.dropLast_sublist _).subset h

theorem dropLast_snoc {α : Type} (l : List α) (a : α) : (l ++ [a]).dropLast = l := by
  simp

theorem trace_snoc_true {trace : List SendEvent} {pid : Nat} {msg : PeerPeerMessage}
    (hin : ∀ e ∈ trace, e.2.2 = true) :
    ∀ e ∈ trace ++ [(pid, msg, true)], e.2.2 = true := by
  intro e he
  cases List.mem_append.mp he with
  | inl h1 => exact hin e h1
  | inr h2 =>
    have he2 : e = (pid, msg, true) := by simpa using h2
    rw [he2]

theorem sendInnerLoop_trace {maxb : Option Nat} {time : Nat} :
    ∀ {fuel : Nat} {files : List SharedFile} {chans : List (Nat × RtcDataChannel)}
      {num : Nat} {pool : List (Nat × Nat)} {rng : List Nat} {trace : List SendEvent}
      {files' : List SharedFile} {chans' : List (Nat × RtcDataChannel)} {num' : Nat}
      {rng' : List Nat} {trace' : List SendEvent} {ab : Bool},
      sendInnerLoop maxb time fuel files chans num pool rng trace =
        some (files', chans', num', rng', trace', ab) →
      (∀ e ∈ trace, e.2.2 = true) →
      ((ab = false → ∀ e ∈ trace', e.2.2 = true) ∧
        (∀ e ∈ trace'.dropLast, e.2.2 = true)) := by
  intro fuel
  induction fuel with
  | zero =>
    intro files chans num pool rng trace files' chans' num' rng' trace' ab h hin
    unfold sendInnerLoop at h
    repeat' split at h
    all_goals try exact Option.noConfusion h
    all_goals cases h
    all_goals exact ⟨fun _ => hin, fun e he => hin e (mem_dropLast he)⟩
  | succ n ih =>
    intro files chans num pool rng trace files' chans' num' rng' trace' ab h hin
    unfold sendInnerLoop at h
    repeat' split at h
    all_goals try exact Option.noConfusion h
    all_goals try exact ih h (trace_snoc_true hin)
    all_goals cases h
    all_goals try exact ⟨fun _ => hin, fun e he => hin e (mem_dropLast he)⟩
    refine ⟨fun hco => Bool.noConfusion hco, ?_⟩
    rw [dropLast_snoc]
    exact hin

theorem sendOuterLoop_trace {maxb : Option Nat} {time : Nat} :
    ∀ {ofuel : Nat} {files : List SharedFile} {chans : List (Nat × RtcDataChannel)}
      {num : Nat} {rng : List Nat} {trace : List SendEvent}
      {files' : List SharedFile} {chans' : List (Nat × RtcDataChannel)}
      {trace' : List SendEvent},
      sendOuterLoop maxb time ofuel files chans num rng trace =
        some (files', chans', trace') →
      (∀ e ∈ trace, e.2.2 = true) →
      ∀ e ∈ trace'.dropLast, e.2.2 = true := by
  intro ofuel
  induction ofuel with
  | zero =>
    intro files chans num rng trace files' chans' trace' h hin
    unfold sendOuterLoop at h
    repeat' split at h
    all_goals try exact Option.noConfusion h
    all_goals cases h
    all_goals exact fun e he => hin e (mem_dropLast he)
  | succ n ih =>
    intro files chans num rng trace files' chans' trace' h hin
    unfold sendOuterLoop at h
    repeat' split at h
    all_goals try exact Option.noConfusion h
    all_goals try (cases h; exact fun e he => hin e (mem_dropLast he))
    · cases h
      exact (sendInnerLoop_trace (by assumption) hin).2
    · exact ih h
        ((sendInnerLoop_trace (by assumption) hin).1
          (Bool.eq_false_iff.mpr (by assumption)))

/-- C3 (amended): in the piece-sending step of one sender-loop tick with
a buffer bound configured, a send returning the buffer-full signal stops
the whole tick, not just that peer link: the refused attempt is always
the last event of the tick's trace, and no further selected piece is
sent to any peer link afterwards (the `BufferIsFilled` arm returns from
`send_pieces_to_remote_peers` itself). -/
theorem c3_buffer_full_stops_tick :
    ∀ (files : List SharedFile) (chans : List (Nat × RtcDataChannel)) (num : Nat)
      (maxb : Option Nat) (time : Nat) (rng : List Nat)
      (files' : List SharedFile) (chans' : List (Nat × RtcDataChannel))
      (trace : List SendEvent),
      send_pieces_to_remote_peers files chans num maxb time rng =
        some (files', chans', trace) →
      ∀ e ∈ trace.dropLast, e.2.2 = true := by
  intro files chans num maxb time rng files' chans' trace h
  exact sendOuterLoop_trace h (by intro e he; cases he)

instance decEqChansEvents : DecidableEq (List (Nat × RtcDataChannel) × List SendEvent) :=
  instDecidableEqProd

instance decEqSendResult :
    DecidableEq (List SharedFile × List (Nat × RtcDataChannel) × List SendEvent) :=
  instDecidableEqProd

/-- `[c3fileA, c3fileB]` after the unbounded two-send tick of the C3
witness. -/
def c3filesW : List SharedFile :=
  [⟨⟨10, 1, [[7]], 1, ⟨[true], 1⟩⟩, ⟨[false], 0⟩,
      [(1, ⟨some ⟨0, ⟨[false], 0⟩, ⟨[true], 1⟩⟩, .notSent⟩)], [1],
      ⟨[some ⟨0, 0, 1⟩], [[], [0]]⟩, [(0, [(1, 0)])], []⟩,
   ⟨⟨20, 1, [[9]], 1, ⟨[true], 1⟩⟩, ⟨[false], 0⟩,
      [(2, ⟨some ⟨0, ⟨[false], 0⟩, ⟨[true], 1⟩⟩, .notSent⟩)], [2],
      ⟨[some ⟨0, 0, 1⟩], [[], [0]]⟩, [(0, [(2, 0)])], []⟩]

/-- The two channels after the unbounded two-send tick of the C3
witness. -/
def c3chansW : List (Nat × RtcDataChannel) :=
  [(1, ⟨49, [.filePiece 10 0 [7]]⟩), (2, ⟨49, [.filePiece 20 0 [9]]⟩)]

/-- Witness for C3 at a concrete two-send tick: both events are
enqueued sends, so the non-final event of the trace is marked `true`. -/
theorem c3_buffer_full_stops_tick_witness :
    send_pieces_to_remote_peers [c3fileA, c3fileB] [(1, ⟨0, []⟩), (2, ⟨0, []⟩)]
        2 none 0 [0, 0] =
      some (c3filesW, c3chansW,
        [(2, .filePiece 20 0 [9], true), (1, .filePiece 10 0 [7], true)]) ∧
    ((2, PeerPeerMessage.filePiece 20 0 [9], true) : SendEvent).2.2 = true :=
  ⟨by decide,
   c3_buffer_full_stops_tick [c3fileA, c3fileB] [(1, ⟨0, []⟩), (2, ⟨0, []⟩)]
     2 none 0 [0, 0] c3filesW c3chansW
     [(2, .filePiece 20 0 [9], true), (1, .filePiece 10 0 [7], true)]
     (by decide) (2, PeerPeerMessage.filePiece 20 0 [9], true) (by decide)⟩

end Sharing
